import Mathlib

/-!
# A shallow embedding of the `fheap` Fibonacci heap

This file models the Go package `fheap` (repository `iyassou/fibonacci-heap`).
The complete variant of the implementation consists of the heap layer in
`src/unnamed/part_000` and the node layer embedded in `src/fheap_test.go`
(after the test functions).  An earlier, incomplete variant lives in
`src/fheap.go` with its node layer in `src/unnamed/part_002`; of that variant
only `insertLeft` is needed here.

Modelling conventions:
* a Go pointer `*fnode` is a `NodeId` (an index into a node store); `Option`
  is used exactly where the source may hold or checks for `nil`;
* every pointer-field assignment of the source becomes one store update, in
  source order, so aliasing behaves as in Go;
* Go methods that mutate the receiver and return an `error` become functions
  returning `Except Err α × σ`: the state is returned on every path, also on
  error paths, mirroring in-place mutation;
* Go `int` fields become `Int`; index sizes become `Nat` lengths;
* the Go map `values` becomes an association list with unique keys;
* a Go runtime panic (slice index out of range, nil dereference) is a
  distinguished `Err` value, distinct from every `error` the source returns;
* unbounded `for` loops and the `cascadingCut` recursion take explicit fuel;
  running out of fuel is the distinguished artifact `Err.fuelExhausted`.
-/

set_option linter.unusedVariables false
set_option linter.unusedSectionVars false

namespace Fheap

/-- Node identifiers: the model of a non-nil Go `*fnode`. -/
abbrev NodeId := Nat

/-- `fnode` (complete variant, src/fheap_test.go): value, priority, bereavement
flag, `parent`/`children`/`left`/`right` pointers and `degree`.  `parent` and
`children` may be nil in the source, `left`/`right` never are after
construction, and `degree` is a Go `int`. -/
structure Fnode (V P : Type) where
  Value : V
  priority : P
  bereaved : Bool
  parent : Option NodeId
  children : Option NodeId
  left : NodeId
  right : NodeId
  degree : Int
deriving DecidableEq

instance {V P : Type} [Inhabited V] [Inhabited P] : Inhabited (Fnode V P) :=
  ⟨⟨default, default, false, none, none, 0, 0, 0⟩⟩

/-- The node store: all `fnode` records ever allocated, addressed by `NodeId`. -/
abbrev Store (V P : Type) := List (Fnode V P)

variable {V P : Type} [Inhabited V] [Inhabited P]

/-- Dereference a node pointer.  Ids produced by the modelled code are always
in range; the default is never reached on states the code constructs. -/
def nget (s : Store V P) (i : NodeId) : Fnode V P :=
  (s.get? i).getD default

/-- One pointer-field assignment `i.f = v`, as a functional store update. -/
def upd (s : Store V P) (i : NodeId) (f : Fnode V P → Fnode V P) : Store V P :=
  s.set i (f (nget s i))

/-- The errors of the source plus the two modelling artifacts.
`errNilFnode`/`errBarrenFnode` are the node-layer sentinels, the four `Err*`
heap errors are the exported ones, `duplicateValue`, `missingValue`,
`oldHigherThanNew` and `unrelatedChild` are the `fmt.Errorf` contract
violations.  `indexOutOfRange` and `nilDereference` model Go runtime panics
(not `error` values); `fuelExhausted` models non-termination of a loop. -/
inductive Err where
  | nilHeap
  | emptyHeap
  | reservedPriority
  | duplicateValue
  | missingValue
  | oldHigherThanNew
  | nilFnode
  | barrenFnode
  | unrelatedChild
  | indexOutOfRange
  | nilDereference
  | fuelExhausted
deriving DecidableEq

/-- The errors a Go caller can observe as returned `error` values; panics and
the fuel artifact are excluded. -/
def Err.isGoError : Err → Bool
  | .indexOutOfRange => false
  | .nilDereference => false
  | .fuelExhausted => false
  | _ => true

/-- Results of the modelled operations are comparable data. -/
instance instDecEqExcept {E A : Type _} [DecidableEq E] [DecidableEq A] :
    DecidableEq (Except E A) := fun a b =>
  match a, b with
  | .ok x, .ok y => if h : x = y then .isTrue (by rw [h]) else .isFalse (by simp [h])
  | .error x, .error y => if h : x = y then .isTrue (by rw [h]) else .isFalse (by simp [h])
  | .ok _, .error _ => .isFalse (by simp)
  | .error _, .ok _ => .isFalse (by simp)

/-- `newFnode` (both variants): fresh singleton node, `left = right = self`. -/
def newFnode (value : V) (priority : P) (id : NodeId) : Fnode V P :=
  { Value := value, priority := priority, bereaved := false,
    parent := none, children := none, left := id, right := id, degree := 0 }

/-- `fnode.insertLeft`, complete variant (src/fheap_test.go lines 427-436):
    fn.left.right = other; other.left = fn.left; other.right = fn;
    fn.left = other. -/
def insertLeft (s : Store V P) (fn other : Option NodeId) :
    Except Err Unit × Store V P :=
  match fn, other with
  | some fn, some other =>
    let s := upd s (nget s fn).left fun n => { n with right := other }
    let s := upd s other fun n => { n with left := (nget s fn).left }
    let s := upd s other fun n => { n with right := fn }
    let s := upd s fn fun n => { n with left := other }
    (.ok (), s)
  | _, _ => (.error .nilFnode, s)

/-- `fnode.insertLeft` of the incomplete variant (src/unnamed/part_002 lines
38-45): only `fn.left = other; other.right = fn`. -/
def insertLeftV2 (s : Store V P) (fn other : Option NodeId) :
    Except Err Unit × Store V P :=
  match fn, other with
  | some fn, some other =>
    let s := upd s fn fun n => { n with left := other }
    let s := upd s other fun n => { n with right := fn }
    (.ok (), s)
  | _, _ => (.error .nilFnode, s)

/-- `fnode.insertChild` (complete variant).  The deferred block sets
`other.parent = fn` and increments `fn.degree` when `err == nil`. -/
def insertChild (s : Store V P) (fn other : Option NodeId) :
    Except Err Unit × Store V P :=
  match fn, other with
  | some fn, some other =>
    let finish : Store V P → Except Err Unit × Store V P := fun s =>
      let s := upd s other fun n => { n with parent := some fn }
      (.ok (), upd s fn fun n => { n with degree := n.degree + 1 })
    match (nget s fn).children with
    | none => finish (upd s fn fun n => { n with children := some other })
    | some c =>
      match insertLeft s (some c) (some other) with
      | (.ok _, s) => finish s
      | (.error e, s) => (.error e, s)
  | _, _ => (.error .nilFnode, s)

/-- `fnode.removeChild` (complete variant, src/fheap_test.go lines 461-482). -/
def removeChild (s : Store V P) (fn : Option NodeId) (child : NodeId) :
    Except Err Unit × Store V P :=
  match fn with
  | none => (.error .nilFnode, s)
  | some fn =>
    match (nget s fn).children with
    | none => (.error .barrenFnode, s)
    | some _ =>
      if (nget s child).parent ≠ some fn then (.error .unrelatedChild, s)
      else
        let s := upd s fn fun n => { n with degree := n.degree - 1 }
        let s :=
          if (nget s fn).children = some child then
            upd s fn fun n => { n with children := some (nget s child).right }
          else s
        if (nget s child).left = (nget s child).right ∧ child = (nget s child).left then
          (.ok (), upd s fn fun n => { n with children := none })
        else
          let s := upd s (nget s child).left fun n => { n with right := (nget s child).right }
          let s := upd s (nget s child).right fun n => { n with left := (nget s child).left }
          (.ok (), s)

/-- `fnode.popChild` (complete variant): removes `fn.children.left`. -/
def popChild (s : Store V P) (fn : Option NodeId) :
    Except Err NodeId × Store V P :=
  match fn with
  | none => (.error .nilFnode, s)
  | some fn =>
    match (nget s fn).children with
    | none => (.error .barrenFnode, s)
    | some c =>
      let child := (nget s c).left
      match removeChild s (some fn) child with
      | (.ok _, s) => (.ok child, s)
      | (.error e, s) => (.error e, s)

/-- The immutable configuration of a heap: the user comparator `higherThan`
and the reserved `highestPriority` (fields of `fheap` set by `New` and never
mutated afterwards). -/
structure Ctx (P : Type) where
  higherThan : P → P → Bool
  highestPriority : P

/-- The mutable state of `fheap` (src/unnamed/part_000): head pointer,
value→node map, and the node store backing all pointers. -/
structure Heap (V P : Type) where
  prioritaire : Option NodeId
  values : List (V × NodeId)
  nodes : Store V P
deriving DecidableEq

variable [DecidableEq V]

/-- Go map read `m[v]`. -/
def mapLookup (m : List (V × NodeId)) (v : V) : Option NodeId :=
  match m with
  | [] => none
  | (w, i) :: rest => if w = v then some i else mapLookup rest v

/-- Go map write `m[v] = i`. -/
def mapInsert (m : List (V × NodeId)) (v : V) (i : NodeId) : List (V × NodeId) :=
  match m with
  | [] => [(v, i)]
  | (w, j) :: rest => if w = v then (v, i) :: rest else (w, j) :: mapInsert rest v i

/-- Go map delete `delete(m, v)`. -/
def mapErase (m : List (V × NodeId)) (v : V) : List (V × NodeId) :=
  match m with
  | [] => []
  | (w, j) :: rest => if w = v then rest else (w, j) :: mapErase rest v

/-- `prioritiesEqual` (lines 222-229): equality derived from the comparator. -/
def prioritiesEqual (c : Ctx P) (a b : P) : Bool :=
  !c.higherThan a b && !c.higherThan b a

/-- `New`: the empty heap. -/
def New : Heap V P := { prioritaire := none, values := [], nodes := [] }

/-- `Size` (lines 44-49). -/
def Size (fh : Option (Heap V P)) : Except Err Nat :=
  match fh with
  | none => .error .nilHeap
  | some fh => .ok fh.values.length

/-- `Push` (lines 52-75). -/
def Push (c : Ctx P) (fh : Option (Heap V P)) (value : V) (priority : P) :
    Except Err Unit × Option (Heap V P) :=
  match fh with
  | none => (.error .nilHeap, none)
  | some fh =>
    if prioritiesEqual c priority c.highestPriority then
      (.error .reservedPriority, some fh)
    else if (mapLookup fh.values value).isSome then
      (.error .duplicateValue, some fh)
    else
      let id := fh.nodes.length
      let nodes := fh.nodes ++ [newFnode value priority id]
      let values := mapInsert fh.values value id
      match fh.prioritaire with
      | none => (.ok (), some { prioritaire := some id, values := values, nodes := nodes })
      | some pr =>
        match insertLeft nodes (some pr) (some id) with
        | (.error e, nodes) =>
          (.error e, some { prioritaire := some pr, values := values, nodes := nodes })
        | (.ok _, nodes) =>
          if c.higherThan priority (nget nodes pr).priority then
            (.ok (), some { prioritaire := some id, values := values, nodes := nodes })
          else
            (.ok (), some { prioritaire := some pr, values := values, nodes := nodes })

/-- `fheap.link` (lines 205-219): detach `y` from the root list, reset it to a
singleton, make it a child of `x`, clear its mark.  (A heap method in the
source, but it only touches the node store.) -/
def link (s : Store V P) (y x : NodeId) : Except Err Unit × Store V P :=
  let s := upd s (nget s y).left fun n => { n with right := (nget s y).right }
  let s := upd s (nget s y).right fun n => { n with left := (nget s y).left }
  let s := upd s y fun n => { n with left := y }
  let s := upd s y fun n => { n with right := y }
  match insertChild s (some x) (some y) with
  | (.error e, s) => (.error e, s)
  | (.ok _, s) => (.ok (), upd s y fun n => { n with bereaved := false })

/-- ⌈log₂ n⌉, computed by halving; structurally recursive on the fuel so that
concrete runs reduce.  `ceilLog2_eq_clog` below shows it agrees with
`Nat.clog 2` whenever the fuel is at least `n`. -/
def ceilLog2 (fuel n : Nat) : Nat :=
  match fuel with
  | 0 => 0
  | fuel + 1 => if n ≤ 1 then 0 else ceilLog2 fuel ((n + 1) / 2) + 1

/-- Line 157, `D := int(math.Ceil(math.Log2(float64(len(fh.values)))))`.
The result is the exact mathematical ⌈log₂ n⌉ for n ≥ 1, which is what the
float computation yields for every index size a heap can reach. -/
def consolidateBound (fh : Heap V P) : Nat :=
  ceilLog2 fh.values.length fh.values.length

/-- Line 158, `A := make([]*fnode[V, P], D+1)`. -/
def consolidateSlots (fh : Heap V P) : List (Option NodeId) :=
  List.replicate (consolidateBound fh + 1) none

/-- A Go slice read `A[d]`: panics when `d` is negative or out of range. -/
def aget (A : List (Option NodeId)) (d : Int) : Except Err (Option NodeId) :=
  if d < 0 then .error .indexOutOfRange
  else
    match A.get? d.toNat with
    | some v => .ok v
    | none => .error .indexOutOfRange

/-- A Go slice write `A[d] = x`: panics when `d` is negative or out of range. -/
def aset (A : List (Option NodeId)) (d : Int) (x : Option NodeId) :
    Except Err (List (Option NodeId)) :=
  if d < 0 then .error .indexOutOfRange
  else if d.toNat < A.length then .ok (A.set d.toNat x)
  else .error .indexOutOfRange

/-- The inner `for A[d] != nil` loop of `consolidate` (lines 164-174); returns
the final `x`, `d` and slot array for the trailing `A[d] = x`.  The loop can
run at most `A.length` times before `d` leaves the array, so the fuel passed
by `consolidateWalk` never runs out. -/
def consolidateInner (c : Ctx P) (fuel : Nat) (s : Store V P)
    (A : List (Option NodeId)) (x : NodeId) (d : Int) :
    Except Err (NodeId × Int × List (Option NodeId)) × Store V P :=
  match fuel with
  | 0 => (.error .fuelExhausted, s)
  | fuel + 1 =>
    match aget A d with
    | .error e => (.error e, s)
    | .ok none => (.ok (x, d, A), s)
    | .ok (some y0) =>
      let xy : NodeId × NodeId :=
        if c.higherThan (nget s y0).priority (nget s x).priority
        then (y0, x) else (x, y0)
      match link s xy.2 xy.1 with
      | (.error e, s) => (.error e, s)
      | (.ok _, s) =>
        match aset A d none with
        | .error e => (.error e, s)
        | .ok A => consolidateInner c fuel s A xy.1 (d + 1)

/-- The root-list walk of `consolidate` (lines 159-180): visit `w`, run the
inner linking loop, store `A[d] = x`, stop after visiting `endId`. -/
def consolidateWalk (c : Ctx P) (fuel : Nat) (s : Store V P)
    (A : List (Option NodeId)) (w endId : NodeId) :
    Except Err (List (Option NodeId)) × Store V P :=
  match fuel with
  | 0 => (.error .fuelExhausted, s)
  | fuel + 1 =>
    let next := (nget s w).right
    match consolidateInner c (A.length + 1) s A w (nget s w).degree with
    | (.error e, s) => (.error e, s)
    | (.ok (x, d, A), s) =>
      match aset A d (some x) with
      | .error e => (.error e, s)
      | .ok A =>
        if w = endId then (.ok A, s)
        else consolidateWalk c fuel s A next endId

/-- The rebuild phase of `consolidate` (lines 181-201): detach every stored
root, splice it back into a fresh root list, track the best head.  Returns the
running `fh.prioritaire` also on the (dead) error path. -/
def consolidateRebuild (c : Ctx P) (A : List (Option NodeId))
    (prioritaire : Option NodeId) (s : Store V P) :
    Except Err Unit × Option NodeId × Store V P :=
  match A with
  | [] => (.ok (), prioritaire, s)
  | none :: A => consolidateRebuild c A prioritaire s
  | some root :: A =>
    let s := upd s (nget s root).left fun n => { n with right := (nget s root).right }
    let s := upd s (nget s root).right fun n => { n with left := (nget s root).left }
    let s := upd s root fun n => { n with left := root }
    let s := upd s root fun n => { n with right := root }
    match prioritaire with
    | none => consolidateRebuild c A (some root) s
    | some pr =>
      match insertLeft s (some pr) (some root) with
      | (.error e, s) => (.error e, some pr, s)
      | (.ok _, s) =>
        if c.higherThan (nget s root).priority (nget s pr).priority then
          consolidateRebuild c A (some root) s
        else
          consolidateRebuild c A (some pr) s

/-- `consolidate` (lines 156-203).  Only called by `Pop` with a non-nil head;
a nil head would be a nil dereference at `fh.prioritaire.left`. -/
def consolidate (c : Ctx P) (fh : Heap V P) : Except Err Unit × Heap V P :=
  let A := consolidateSlots fh
  match fh.prioritaire with
  | none => (.error .nilDereference, fh)
  | some pr =>
    let endId := (nget fh.nodes pr).left
    match consolidateWalk c (fh.nodes.length + 1) fh.nodes A pr endId with
    | (.error e, s) => (.error e, { fh with nodes := s })
    | (.ok A, s) =>
      match consolidateRebuild c A none s with
      | (r, p, s) => (r, { fh with prioritaire := p, nodes := s })

/-- The child-fostering loop of `Pop` (lines 92-110): pop a child, reset it to
an unmarked, parentless singleton, splice it into the root list; stop on the
barren-node sentinel. -/
def fosterLoop (c : Ctx P) (fuel : Nat) (pr : NodeId) (s : Store V P) :
    Except Err Unit × Store V P :=
  match fuel with
  | 0 => (.error .fuelExhausted, s)
  | fuel + 1 =>
    match popChild s (some pr) with
    | (.error e, s) => if e = .barrenFnode then (.ok (), s) else (.error e, s)
    | (.ok child, s) =>
      let s := upd s child fun n => { n with parent := none }
      let s := upd s child fun n => { n with left := child }
      let s := upd s child fun n => { n with right := child }
      let s := upd s child fun n => { n with bereaved := false }
      match insertLeft s (some pr) (some child) with
      | (.error e, s) => (.error e, s)
      | (.ok _, s) => fosterLoop c fuel pr s

/-- `Pop` (lines 79-121).  The deferred `delete(fh.values, value)` runs on
return when `err == nil`; when consolidate's slot access panics, the deferred
function runs during the unwind and still sees `err == nil`, so the index
entry is deleted before the panic escapes.  On an error *returned* by an inner
call the delete does not happen. -/
def Pop (c : Ctx P) (fh : Option (Heap V P)) :
    Except Err V × Option (Heap V P) :=
  match fh with
  | none => (.error .nilHeap, none)
  | some fh =>
    match fh.prioritaire with
    | none => (.error .emptyHeap, some fh)
    | some pr =>
      let value := (nget fh.nodes pr).Value
      match fosterLoop c (fh.nodes.length + 1) pr fh.nodes with
      | (.error e, s) => (.error e, some { fh with nodes := s })
      | (.ok _, s) =>
        if (nget s pr).left = (nget s pr).right ∧ (nget s pr).left = pr then
          (.ok value,
           some { prioritaire := none, values := mapErase fh.values value, nodes := s })
        else
          let s := upd s (nget s pr).left fun n => { n with right := (nget s pr).right }
          let s := upd s (nget s pr).right fun n => { n with left := (nget s pr).left }
          let fh1 : Heap V P :=
            { prioritaire := some (nget s pr).right, values := fh.values, nodes := s }
          match consolidate c fh1 with
          | (.ok _, fh2) =>
            (.ok value, some { fh2 with values := mapErase fh2.values value })
          | (.error e, fh2) =>
            if e = .indexOutOfRange then
              (.error e, some { fh2 with values := mapErase fh2.values value })
            else
              (.error e, some fh2)

/-- `fheap.cut` (lines 257-267). -/
def cut (c : Ctx P) (fh : Heap V P) (x y : NodeId) :
    Except Err Unit × Heap V P :=
  match removeChild fh.nodes (some y) x with
  | (.error e, s) => (.error e, { fh with nodes := s })
  | (.ok _, s) =>
    let s := upd s x fun n => { n with left := x }
    let s := upd s x fun n => { n with right := x }
    let s := upd s x fun n => { n with parent := none }
    let s := upd s x fun n => { n with bereaved := false }
    match insertLeft s fh.prioritaire (some x) with
    | (.error e, s) => (.error e, { fh with nodes := s })
    | (.ok _, s) => (.ok (), { fh with nodes := s })

/-- `fheap.cascadingCut` (lines 269-285). -/
def cascadingCut (c : Ctx P) (fuel : Nat) (fh : Heap V P) (y : NodeId) :
    Except Err Unit × Heap V P :=
  match fuel with
  | 0 => (.error .fuelExhausted, fh)
  | fuel + 1 =>
    match (nget fh.nodes y).parent with
    | none => (.ok (), fh)
    | some z =>
      if !(nget fh.nodes y).bereaved then
        (.ok (), { fh with nodes := upd fh.nodes y fun n => { n with bereaved := true } })
      else
        match cut c fh y z with
        | (.error e, fh) => (.error e, fh)
        | (.ok _, fh) => cascadingCut c fuel fh z

/-- The internal `increasePriority` (lines 231-255): shared with `Delete`,
skips the sentinel check. -/
def increasePriority (c : Ctx P) (fh : Heap V P) (value : V) (priority : P) :
    Except Err Unit × Heap V P :=
  match mapLookup fh.values value with
  | none => (.error .missingValue, fh)
  | some x =>
    if c.higherThan (nget fh.nodes x).priority priority then
      (.error .oldHigherThanNew, fh)
    else
      let fh : Heap V P :=
        { fh with nodes := upd fh.nodes x fun n => { n with priority := priority } }
      let step : Except Err Unit × Heap V P :=
        match (nget fh.nodes x).parent with
        | some y =>
          if c.higherThan (nget fh.nodes x).priority (nget fh.nodes y).priority then
            match cut c fh x y with
            | (.error e, fh) => (.error e, fh)
            | (.ok _, fh) => cascadingCut c (fh.nodes.length + 1) fh y
          else (.ok (), fh)
        | none => (.ok (), fh)
      match step with
      | (.error e, fh) => (.error e, fh)
      | (.ok _, fh) =>
        match fh.prioritaire with
        | none => (.error .nilDereference, fh)
        | some pr =>
          if c.higherThan (nget fh.nodes x).priority (nget fh.nodes pr).priority then
            (.ok (), { fh with prioritaire := some x })
          else (.ok (), fh)

/-- `IncreasePriority` (lines 123-136): the public entry with the sentinel
check. -/
def IncreasePriority (c : Ctx P) (fh : Option (Heap V P)) (value : V) (priority : P) :
    Except Err Unit × Option (Heap V P) :=
  match fh with
  | none => (.error .nilHeap, none)
  | some fh =>
    match fh.prioritaire with
    | none => (.error .emptyHeap, some fh)
    | some _ =>
      if prioritiesEqual c priority c.highestPriority then
        (.error .reservedPriority, some fh)
      else
        match increasePriority c fh value priority with
        | (r, fh) => (r, some fh)

/-- `Delete` (lines 138-153): raise the value to the reserved priority, then
pop it. -/
def Delete (c : Ctx P) (fh : Option (Heap V P)) (value : V) :
    Except Err Unit × Option (Heap V P) :=
  match fh with
  | none => (.error .nilHeap, none)
  | some fh =>
    match fh.prioritaire with
    | none => (.error .emptyHeap, some fh)
    | some _ =>
      match increasePriority c fh value c.highestPriority with
      | (.error e, fh) => (.error e, some fh)
      | (.ok _, fh) =>
        match Pop c (some fh) with
        | (.error e, fh) => (.error e, fh)
        | (.ok _, fh) => (.ok (), fh)

/-- One public operation of the complete variant. -/
inductive Op (V P : Type) where
  | push (value : V) (priority : P)
  | pop
  | increase (value : V) (priority : P)
  | delete (value : V)

/-- Apply one public operation (dropping `Pop`'s returned value). -/
def applyOp (c : Ctx P) (fh : Option (Heap V P)) (op : Op V P) :
    Except Err Unit × Option (Heap V P) :=
  match op with
  | .push v p => Push c fh v p
  | .pop => match Pop c fh with | (r, fh) => (r.map fun _ => (), fh)
  | .increase v p => IncreasePriority c fh v p
  | .delete v => Delete c fh v

/-- Run a list of operations, stopping at the first error. -/
def runOps (c : Ctx P) (fh : Option (Heap V P)) (ops : List (Op V P)) :
    Except Err Unit × Option (Heap V P) :=
  match ops with
  | [] => (.ok (), fh)
  | op :: ops =>
    match applyOp c fh op with
    | (.ok _, fh) => runOps c fh ops
    | (.error e, fh) => (.error e, fh)

/-- The heaps reachable from a new empty heap by successful public
operations. -/
inductive Reachable (c : Ctx P) : Heap V P → Prop where
  | new : Reachable c New
  | step (h h' : Heap V P) (op : Op V P) : Reachable c h →
      applyOp c (some h) op = (.ok (), some h') → Reachable c h'

/-! ## Observations on heap states

Executable traversals of the pointer structure, used to state the universal
invariants and the sibling-list postconditions.  They are fuel-bounded; the
fuel `s.length + 1` is enough for every list the code can build, since a
sibling list never holds more nodes than the store. -/

/-- Follow `right` pointers from `cur`, stopping when the next pointer returns
to `start` (or when fuel runs out). -/
def chainRight (s : Store V P) (start : NodeId) : Nat → NodeId → List NodeId
  | 0, _ => []
  | fuel + 1, cur =>
    cur :: (if (nget s cur).right = start then [] else chainRight s start fuel (nget s cur).right)

/-- The members of the circular sibling list containing `start`, in rightward
order starting at `start`. -/
def ringFrom (s : Store V P) (start : NodeId) : List NodeId :=
  chainRight s start (s.length + 1) start

/-- The members of `n`'s child sibling list (empty when `children` is nil). -/
def childRing (s : Store V P) (n : NodeId) : List NodeId :=
  match (nget s n).children with
  | none => []
  | some c => ringFrom s c

/-- All nodes of the tree rooted at `n` (fuel bounds the depth). -/
def subtreeIds (s : Store V P) : Nat → NodeId → List NodeId
  | 0, _ => []
  | fuel + 1, n => n :: (childRing s n).flatMap (subtreeIds s fuel)

/-- The root list of a heap. -/
def rootRing (h : Heap V P) : List NodeId :=
  match h.prioritaire with
  | none => []
  | some pr => ringFrom h.nodes pr

/-- All nodes of the forest reachable from the head through sibling and child
links. -/
def forestIds (h : Heap V P) : List NodeId :=
  (rootRing h).flatMap (subtreeIds h.nodes (h.nodes.length + 1))

/-- *Ordered*: no child is strictly higher priority than its parent. -/
def OrderedInv (c : Ctx P) (h : Heap V P) : Prop :=
  ∀ n ∈ forestIds h, ∀ ch ∈ childRing h.nodes n,
    c.higherThan (nget h.nodes ch).priority (nget h.nodes n).priority = false

/-- *Root-unmarked*: no node on the root list is marked. -/
def RootsUnmarkedInv (h : Heap V P) : Prop :=
  ∀ r ∈ rootRing h, (nget h.nodes r).bereaved = false

/-- *Degree-correct*: each node's degree equals the size of its child sibling
list. -/
def DegreeInv (h : Heap V P) : Prop :=
  ∀ n ∈ forestIds h, (nget h.nodes n).degree = (childRing h.nodes n).length

/-- *Index-bijective*: the index's keys are exactly the values of the forest's
nodes, with no duplicates. -/
def IndexInv (h : Heap V P) : Prop :=
  ((forestIds h).map fun i => (nget h.nodes i).Value).Perm (h.values.map Prod.fst) ∧
  ((forestIds h).map fun i => (nget h.nodes i).Value).Nodup

/-- *Head-maximal*: no root's priority is higher than head's. -/
def HeadMaxInv (c : Ctx P) (h : Heap V P) : Prop :=
  ∀ hd, h.prioritaire = some hd →
    ∀ r ∈ rootRing h, c.higherThan (nget h.nodes r).priority (nget h.nodes hd).priority = false

/-- The five universal invariants of the specification. -/
def UniversalInvariants (c : Ctx P) (h : Heap V P) : Prop :=
  OrderedInv c h ∧ RootsUnmarkedInv h ∧ DegreeInv h ∧ IndexInv h ∧ HeadMaxInv c h

/-- The documented comparator contract (spec §6): `higher` is irreflexive,
asymmetric and connected — for distinct priorities exactly one direction
holds.  (Transitivity is *not* part of the documented contract.) -/
def StrictConnected (c : Ctx P) : Prop :=
  (∀ x, c.higherThan x x = false) ∧
  (∀ x y, c.higherThan x y = true → c.higherThan y x = false) ∧
  (∀ x y, x ≠ y → c.higherThan x y = true ∨ c.higherThan y x = true)

/-- A comparator that is additionally transitive (a strict total order). -/
def TotalComparator (c : Ctx P) : Prop :=
  StrictConnected c ∧
  ∀ x y z, c.higherThan x y = true → c.higherThan y z = true → c.higherThan x z = true

/-- Run `n` consecutive `Pop`s, returning the popped values; `none` if any pop
fails. -/
def popsList (c : Ctx P) (fh : Option (Heap V P)) : Nat → Option (List V)
  | 0 => some []
  | n + 1 =>
    match Pop c fh with
    | (.ok v, fh) => (popsList c fh n).map fun l => v :: l
    | (.error _, _) => none

/-- The state of `Pop` (lines 91-117) at the moment `consolidate` is invoked:
the popped value together with the heap after fostering and after excising the
head from the root list.  `none` when the pop does not reach `consolidate`
(nil or empty heap, a fostering error, or the sole-root exit). -/
def popEntryState (c : Ctx P) (fh : Heap V P) : Option (V × Heap V P) :=
  match fh.prioritaire with
  | none => none
  | some pr =>
    let value := (nget fh.nodes pr).Value
    match fosterLoop c (fh.nodes.length + 1) pr fh.nodes with
    | (.error _, _) => none
    | (.ok _, s) =>
      if (nget s pr).left = (nget s pr).right ∧ (nget s pr).left = pr then none
      else
        let s := upd s (nget s pr).left fun n => { n with right := (nget s pr).right }
        let s := upd s (nget s pr).right fun n => { n with left := (nget s pr).left }
        some (value,
          { prioritaire := some (nget s pr).right, values := fh.values, nodes := s })

/-! ## Concrete instances

The concrete heaps used by counterexamples and witnesses: an `Int` min-heap
(the spec's own example instantiation) and a comparator that satisfies the
documented §6 contract — irreflexive, asymmetric, connected — but is not
transitive on the four priorities `1, 2, 3, 4`. -/

/-- The spec's example comparator: an `Int` min-heap with a very low sentinel. -/
def minCtx : Ctx Int :=
  { higherThan := fun x y => decide (x < y), highestPriority := -1000000 }

/-- A tournament on `{1, 2, 3, 4}` (falling back to `<` elsewhere): connected
and asymmetric, hence satisfying the documented comparator contract, but with
the cycle `2 ≻ 1 ≻ 4 ≻ 2`. -/
def tourB : Int → Int → Bool := fun x y =>
  if x = y then false
  else if 1 ≤ x ∧ x ≤ 4 ∧ 1 ≤ y ∧ y ≤ 4 then
    decide ((x, y) ∈ ([(1, 4), (2, 1), (3, 1), (3, 2), (4, 2), (4, 3)] : List (Int × Int)))
  else decide (x < y)

def tourCtx : Ctx Int := { higherThan := tourB, highestPriority := -100 }

/-- Push operations for a list of (value, priority) pairs. -/
def pushesInt (l : List (Int × Int)) : List (Op Int Int) :=
  l.map fun vp => Op.push vp.1 vp.2

/-- The heap a run of operations ends in (the empty heap if the run fails). -/
def heapAfter (c : Ctx P) (ops : List (Op V P)) : Heap V P :=
  match runOps c (some New) ops with
  | (_, some h) => h
  | (_, none) => New

/-- 33 pushes (value = priority = 1..33), one pop — building a binomial tree
of order 5 — then 16 deletes of descendants that keep the degree-5 root
intact while shrinking the heap to 16 entries. -/
def oobOpsPrefix : List (Op Int Int) :=
  pushesInt ((List.range 33).map fun i => ((i : Int) + 1, (i : Int) + 1)) ++ [Op.pop] ++
  ([33, 32, 29, 25, 17, 30, 24, 21, 16, 13, 9, 26, 14, 31, 8, 5].map fun v => Op.delete (v : Int))

/-- The reachable 16-entry heap that still contains a node of degree 5. -/
def oobHeap : Heap Int Int := heapAfter minCtx oobOpsPrefix

/-- The full failing sequence: one more delete on `oobHeap`. -/
def oobOps : List (Op Int Int) := oobOpsPrefix ++ [Op.delete 15]

/-- Heap with the single entry (value 13, priority 5). -/
def h13 : Heap Int Int := heapAfter minCtx (pushesInt [(13, 5)])

/-- Heap after pushing values 1..5 with priority = value. -/
def h5 : Heap Int Int := heapAfter minCtx (pushesInt [(1, 1), (2, 2), (3, 3), (4, 4), (5, 5)])

/-- The spec's increase-then-pop scenario after the increase: six entries,
one pop, then a successful `IncreasePriority(6, 0)`. -/
def h6inc : Heap Int Int :=
  heapAfter minCtx
    (pushesInt [(1, 1), (2, 2), (3, 3), (4, 4), (5, 5), (6, 6)] ++ [Op.pop])

/-! ## Basic lemmas about the store and the bound -/

theorem length_upd (s : Store V P) (i : NodeId) (f : Fnode V P → Fnode V P) :
    (upd s i f).length = s.length := by
  simp [upd]

theorem nget_upd_ne (s : Store V P) (i j : NodeId) (f : Fnode V P → Fnode V P)
    (h : j ≠ i) : nget (upd s i f) j = nget s j := by
  simp [upd, nget, List.getElem?_set_ne (Ne.symm h)]

theorem nget_upd_self (s : Store V P) (i : NodeId) (f : Fnode V P → Fnode V P)
    (h : i < s.length) : nget (upd s i f) i = f (nget s i) := by
  simp [upd, nget, List.getElem?_set_self, h]

theorem nget_append_lt (s : Store V P) (n : Fnode V P) (i : NodeId)
    (h : i < s.length) : nget (s ++ [n]) i = nget s i := by
  simp [nget, List.getElem?_append_left h]

theorem nget_append_self (s : Store V P) (n : Fnode V P) :
    nget (s ++ [n]) s.length = n := by
  simp [nget]

/-- `ceilLog2` agrees with the textbook ceiling logarithm whenever the fuel
covers its argument. -/
theorem ceilLog2_eq_clog (fuel n : Nat) (h : n ≤ fuel) :
    ceilLog2 fuel n = Nat.clog 2 n := by
  induction fuel generalizing n with
  | zero =>
    interval_cases n
    simp [ceilLog2]
  | succ fuel ih =>
    rw [ceilLog2]
    by_cases h1 : n ≤ 1
    · interval_cases n <;> simp [Nat.clog]
    · rw [if_neg h1, ih ((n + 1) / 2) (by omega)]
      have h2 : Nat.clog 2 n = Nat.clog 2 ((n + 2 - 1) / 2) + 1 :=
        Nat.clog_of_two_le (by omega) (by omega)
      have h3 : (n + 2 - 1) / 2 = (n + 1) / 2 := by omega
      rw [h2, h3]

/-- The bound of line 157 is `⌈log₂ |index|⌉` for the index size at the moment
`consolidate` runs. -/
theorem consolidateBound_eq_clog (fh : Heap V P) :
    consolidateBound fh = Nat.clog 2 fh.values.length :=
  ceilLog2_eq_clog _ _ le_rfl

/-! ## Facts about `popEntryState` -/

/-- Fostering and excising do not touch the index, so the heap passed to
`consolidate` still holds the popped value's index entry. -/
theorem popEntryState_values (c : Ctx P) (fh : Heap V P) (v : V) (h1 : Heap V P)
    (h : popEntryState c fh = some (v, h1)) : h1.values = fh.values := by
  unfold popEntryState at h
  split at h
  · exact absurd h (by simp)
  · split at h
    · exact absurd h (by simp)
    · split at h
      · exact absurd h (by simp)
      · simp only [Option.some_inj, Prod.mk.injEq] at h
        rw [← h.2]

/-- `Pop` on a heap whose pop reaches `consolidate` is exactly `consolidate`
at the entry state followed by the deferred index delete. -/
theorem popEntryState_pop (c : Ctx P) (fh : Heap V P) (v : V) (h1 : Heap V P)
    (h : popEntryState c fh = some (v, h1)) :
    Pop c (some fh) =
      (match consolidate c h1 with
       | (.ok _, fh2) => (.ok v, some { fh2 with values := mapErase fh2.values v })
       | (.error e, fh2) =>
         if e = .indexOutOfRange then
           (.error e, some { fh2 with values := mapErase fh2.values v })
         else (.error e, some fh2)) := by
  simp only [popEntryState] at h
  rcases hpr : fh.prioritaire with _ | pr
  · simp only [hpr] at h
    exact absurd h (by simp)
  · simp only [hpr] at h
    rcases hfl : fosterLoop c (fh.nodes.length + 1) pr fh.nodes with ⟨r, s⟩
    simp only [hfl] at h
    cases r with
    | error e => simp at h
    | ok u =>
      simp only [] at h
      by_cases hsole : (nget s pr).left = (nget s pr).right ∧ (nget s pr).left = pr
      · rw [if_pos hsole] at h
        exact absurd h (by simp)
      · rw [if_neg hsole] at h
        simp only [Option.some_inj, Prod.mk.injEq] at h
        simp only [Pop, hpr, hfl]
        rw [if_neg hsole]
        rw [← h.1, ← h.2]

/-! ## Claim C5 — the consolidate bound

The source computes `D` from `len(fh.values)` at line 157, but the deferred
`delete(fh.values, value)` of `Pop` (lines 80-84) only runs when `Pop`
returns, *after* `consolidate`.  So `n` is the index size *before* the pop's
removal, one more than the size the claim states. -/

/-- C5 (counterexample): push 1..5 and pop.  `consolidate` runs with the
bound 3 = ⌈log₂ 5⌉ computed from the pre-removal index size 5, while the
claim's `n` — the post-removal size — is 4, with ⌈log₂ 4⌉ = 2 ≠ 3. -/
theorem c5_counterexample :
    (popEntryState minCtx h5).map (fun vh => consolidateBound vh.2) = some 3 ∧
    (Pop minCtx (some h5)).2.map (fun h => h.values.length) = some 4 ∧
    Nat.clog 2 4 = 2 ∧ (3 : Nat) ≠ 2 := by
  refine ⟨by decide, by decide, ?clog, by decide⟩
  rw [← ceilLog2_eq_clog 4 4 le_rfl]
  decide

/-- C5 (amended): when a `Pop` reaches `consolidate`, the bound `D` equals
⌈log₂ n⌉ for `n` the index size *before* the deferred removal (one more than
the spec's `n`), the slot array `A` has `D + 1` slots, and `Pop` is exactly
`consolidate` at that state followed by the deferred index delete. -/
theorem c5_amended (c : Ctx P) (fh : Heap V P) (v : V) (h1 : Heap V P)
    (h : popEntryState c fh = some (v, h1)) :
    consolidateBound h1 = Nat.clog 2 fh.values.length ∧
    (consolidateSlots h1).length = consolidateBound h1 + 1 ∧
    Pop c (some fh) =
      (match consolidate c h1 with
       | (.ok _, fh2) => (.ok v, some { fh2 with values := mapErase fh2.values v })
       | (.error e, fh2) =>
         if e = .indexOutOfRange then
           (.error e, some { fh2 with values := mapErase fh2.values v })
         else (.error e, some fh2)) := by
  refine ⟨?_, by simp [consolidateSlots], popEntryState_pop c fh v h1 h⟩
  rw [consolidateBound_eq_clog, popEntryState_values c fh v h1 h]

/-- The state at which the pop of `h5` invokes `consolidate`. -/
def h5mid : Heap Int Int :=
  match popEntryState minCtx h5 with
  | some vh => vh.2
  | none => New

/-- C5 (witness for the amended theorem): the pop of the 5-element heap. -/
theorem c5_amended_witness :
    consolidateBound h5mid = Nat.clog 2 h5.values.length ∧
    (consolidateSlots h5mid).length = consolidateBound h5mid + 1 ∧
    Pop minCtx (some h5) =
      (match consolidate minCtx h5mid with
       | (.ok _, fh2) => (.ok 1, some { fh2 with values := mapErase fh2.values 1 })
       | (.error e, fh2) =>
         if e = .indexOutOfRange then
           (.error e, some { fh2 with values := mapErase fh2.values 1 })
         else (.error e, some fh2)) :=
  c5_amended minCtx h5 1 h5mid (by decide)

/-! ## Claim C6 — consolidate's slot array can be overrun

The slot array is *not* grown on demand, and the estimate `D` can be
exceeded on a reachable heap: after 33 pushes and one pop the heap is a
binomial tree of order 5; sixteen deletes of carefully chosen descendants
shrink it to 16 entries while its root keeps degree 5.  The next delete pops
an entry while `len(fh.values) = 16`, so `D = ⌈log₂ 16⌉ = 4` and `A` has 5
slots — and the walk reads `A[5]` for the degree-5 root: index out of range. -/

/-- C6: every operation of the 50-operation prefix succeeds, the resulting
heap has 16 entries and still contains value 15, and the one further delete
makes `consolidate` fault with the out-of-range panic. -/
theorem c6_code_bug :
    (runOps minCtx (some New) oobOpsPrefix).1 = .ok () ∧
    (mapLookup oobHeap.values 15).isSome = true ∧
    oobHeap.values.length = 16 ∧
    (runOps minCtx (some New) oobOps).1 = .error .indexOutOfRange := by
  refine ⟨by decide!, by decide!, by decide!, by decide!⟩

/-! ## Claim C3 — Delete

The error cases hold, but "when the value is present … afterwards the value
is absent … and size has decreased by exactly one" fails on the reachable
heap `oobHeap`: `Delete(15)` panics inside `Pop`'s consolidate instead of
completing; the panic is not one of the implementation's `error` values. -/

/-- C3: on the reachable 16-entry heap, value 15 is present, yet `Delete`
faults with the out-of-range panic — not a returned `error` — so the
deletion postcondition is never established. -/
theorem c3_code_bug :
    (runOps minCtx (some New) oobOpsPrefix).1 = .ok () ∧
    (mapLookup oobHeap.values 15).isSome = true ∧
    (Delete minCtx (some oobHeap) 15).1 = .error .indexOutOfRange ∧
    Err.isGoError .indexOutOfRange = false := by
  refine ⟨by decide!, by decide!, by decide!, by decide⟩

/-! ## Claim C7 — increase-priority that does not strictly improve

The public entry only rejects a new priority that the *old* one is strictly
higher than (line 238).  A new priority tied with the old one — no strict
improvement — is accepted. -/

/-- C7 (counterexample): priority 5 → 5 does not strictly improve, yet the
operation succeeds. -/
theorem c7_counterexample :
    minCtx.higherThan (5 : Int) 5 = false ∧
    (mapLookup h13.values 13).isSome = true ∧
    (IncreasePriority minCtx (some h13) 13 5).1 = .ok () := by
  decide

/-- C7 (amended): the public `IncreasePriority` fails — returning the
old-higher contract violation with the heap entirely unchanged — exactly when
the old priority is strictly higher than the new one; a tied new priority is
not rejected. -/
theorem c7_amended (c : Ctx P) (h : Heap V P) (v : V) (p : P) (pr x : NodeId)
    (hpr : h.prioritaire = some pr)
    (hsent : prioritiesEqual c p c.highestPriority = false)
    (hx : mapLookup h.values v = some x)
    (hold : c.higherThan (nget h.nodes x).priority p = true) :
    IncreasePriority c (some h) v p = (.error .oldHigherThanNew, some h) := by
  simp [IncreasePriority, hpr, hsent, increasePriority, hx, hold]

/-- C7 (witness): increasing 13's priority from 5 to the strictly worse 7
fails and leaves the heap unchanged. -/
theorem c7_amended_witness :
    IncreasePriority minCtx (some h13) 13 7 = (.error .oldHigherThanNew, some h13) :=
  c7_amended minCtx h13 13 7 0 0 (by decide) (by decide) (by decide) (by decide)

/-! ## Claim C8 — insertLeft's traversal postcondition (counterexample part)

In the incomplete variant, `insertLeft` relinks only `fn.left` and
`other.right`, so a rightward traversal from `self` never reaches `other`. -/

/-- Two singleton nodes. -/
def s2 : Store Int Int := [newFnode 0 0 0, newFnode 1 1 1]

/-- C8 (counterexample): in the `part_002` variant, after `insertLeft` of the
singleton node 1 into singleton node 0's list, the rightward traversal from
node 0 visits only node 0 — the former member 1 of the other list is never
visited. -/
theorem c8_counterexample :
    (insertLeftV2 s2 (some 0) (some 1)).1 = .ok () ∧
    ringFrom (insertLeftV2 s2 (some 0) (some 1)).2 0 = [0] ∧
    ¬ (1 : NodeId) ∈ ringFrom (insertLeftV2 s2 (some 0) (some 1)).2 0 := by
  decide

/-! ## Circular sibling lists

`IsRing s l` says the nodes `l` form a circular doubly-linked list, in
rightward order starting at `l.headD 0`. -/

def IsRing (s : Store V P) (l : List NodeId) : Prop :=
  l ≠ [] ∧ l.Nodup ∧
  l.Chain' (fun a b => (nget s a).right = b ∧ (nget s b).left = a) ∧
  ((nget s (l.getLastD 0)).right = l.headD 0 ∧ (nget s (l.headD 0)).left = l.getLastD 0)

/-- Structurally recursive form of the doubly-linked chain condition, so that
concrete instances evaluate. -/
def ringChain (s : Store V P) : List NodeId → Prop
  | [] => True
  | [_] => True
  | a :: b :: t => ((nget s a).right = b ∧ (nget s b).left = a) ∧ ringChain s (b :: t)

instance decRingChain (s : Store V P) : (l : List NodeId) → Decidable (ringChain s l)
  | [] => inferInstanceAs (Decidable True)
  | [_] => inferInstanceAs (Decidable True)
  | _ :: b :: t =>
    letI := decRingChain s (b :: t)
    inferInstanceAs (Decidable (_ ∧ _))

theorem ringChain_iff (s : Store V P) (l : List NodeId) :
    ringChain s l ↔ l.Chain' (fun a b => (nget s a).right = b ∧ (nget s b).left = a) := by
  induction l with
  | nil => simp [ringChain]
  | cons a t ih =>
    cases t with
    | nil => simp [ringChain]
    | cons b u =>
      rw [List.chain'_cons, ringChain, ← ih]

instance decIsRing (s : Store V P) (l : List NodeId) : Decidable (IsRing s l) :=
  decidable_of_iff (l ≠ [] ∧ l.Nodup ∧ ringChain s l ∧
    ((nget s (l.getLastD 0)).right = l.headD 0 ∧ (nget s (l.headD 0)).left = l.getLastD 0))
    (by unfold IsRing; rw [ringChain_iff])

theorem nodup_lt_length {l : List NodeId} {n : Nat}
    (hd : l.Nodup) (hb : ∀ i ∈ l, i < n) : l.length ≤ n := by
  have h1 : l.toFinset.card = l.length := List.toFinset_card_of_nodup hd
  have h2 : l.toFinset ⊆ Finset.range n := by
    intro i hi
    simp only [List.mem_toFinset] at hi
    simpa using hb i hi
  have := Finset.card_le_card h2
  simpa [h1] using this

theorem getLastD_cons_of_ne_nil {l : List NodeId} (a d : NodeId) (h : l ≠ []) :
    (a :: l).getLastD d = l.getLastD d := by
  cases l with
  | nil => exact absurd rfl h
  | cons b t => simp [List.getLastD]

theorem getLastD_concat (l : List NodeId) (a d : NodeId) :
    (l ++ [a]).getLastD d = a := by
  induction l with
  | nil => rfl
  | cons b t ih =>
    rw [List.cons_append, getLastD_cons_of_ne_nil _ _ (by simp), ih]

/-- Walking right visits exactly the segment `seg` when the rights chain
through it, the last right returns to `start`, and `start` is not inside. -/
theorem chainRight_spec (s : Store V P) (start : NodeId) (seg : List NodeId) :
    ∀ (cur : NodeId) (fuel : Nat),
    seg.Chain' (fun a b => (nget s a).right = b) →
    (nget s (seg.getLastD 0)).right = start →
    start ∉ seg →
    seg ≠ [] →
    seg.headD 0 = cur →
    seg.length ≤ fuel →
    chainRight s start fuel cur = seg := by
  induction seg with
  | nil => intro cur fuel _ _ _ hne; exact absurd rfl hne
  | cons a tail ih =>
    intro cur fuel hchain hlast hstart hne hhead hfuel
    obtain ⟨fuel, rfl⟩ : ∃ f, fuel = f + 1 := ⟨fuel - 1, by simp at hfuel; omega⟩
    have hcur : cur = a := by simpa using hhead.symm
    subst hcur
    cases tail with
    | nil =>
      have hw : (nget s cur).right = start := by simpa [List.getLastD] using hlast
      simp [chainRight, hw]
    | cons b t =>
      have hab : (nget s cur).right = b := (List.chain'_cons.mp hchain).1
      have hbs : b ≠ start := by
        intro hcontra
        exact hstart (by simp [hcontra])
      rw [chainRight]
      rw [if_neg (by rw [hab]; exact fun hc => hbs hc)]
      rw [hab]
      have htail : chainRight s start fuel b = b :: t := by
        refine ih b fuel (List.chain'_cons.mp hchain).2 ?_ ?_ (by simp) (by simp) ?_
        · rwa [getLastD_cons_of_ne_nil cur 0 (by simp)] at hlast
        · intro hc
          exact hstart (by simp [hc])
        · simp at hfuel ⊢
          omega
      rw [htail]

/-- Traversing right from `x` yields the list whose `right` pointers chain
through it and wrap back to `x`. -/
theorem ringFrom_spec (s : Store V P) (x : NodeId) (rest : List NodeId)
    (hchainr : (x :: rest).Chain' (fun a b => (nget s a).right = b))
    (hwrapr : (nget s ((x :: rest).getLastD 0)).right = x)
    (hnodup : (x :: rest).Nodup)
    (hlen : (x :: rest).length ≤ s.length + 1) :
    ringFrom s x = x :: rest := by
  rw [ringFrom]
  cases rest with
  | nil =>
    have hxx : (nget s x).right = x := by simpa [List.getLastD] using hwrapr
    simp [chainRight, hxx]
  | cons r rs =>
    have hxr : (nget s x).right = r := (List.chain'_cons.mp hchainr).1
    have hrx : r ≠ x := by
      intro hc
      have := (List.nodup_cons.mp hnodup).1
      exact this (by simp [hc])
    rw [chainRight]
    rw [if_neg (by rw [hxr]; exact fun hc => hrx hc)]
    rw [hxr]
    have hrec : chainRight s x s.length r = r :: rs := by
      refine chainRight_spec s x (r :: rs) r s.length
        (List.chain'_cons.mp hchainr).2 ?_ ?_ (by simp) (by simp) ?_
      · rwa [getLastD_cons_of_ne_nil x 0 (by simp)] at hwrapr
      · exact fun hc => (List.nodup_cons.mp hnodup).1 hc
      · simp at hlen ⊢
        omega
    rw [hrec]

/-- Traversing right from the head of a ring yields exactly the ring. -/
theorem ringFrom_isRing (s : Store V P) (x : NodeId) (rest : List NodeId)
    (hring : IsRing s (x :: rest)) (hlen : (x :: rest).length ≤ s.length + 1) :
    ringFrom s x = x :: rest := by
  obtain ⟨-, hnodup, hchain, hwrapr, hwrapl⟩ := hring
  exact ringFrom_spec s x rest (hchain.imp fun a b hab => hab.1) hwrapr hnodup hlen

/-- Transport a doubly-linked chain between stores that agree on the `right`
pointers of all but the last member and the `left` pointers of all but the
first. -/
theorem chain'_ring_congr (s t : Store V P) (l : List NodeId)
    (hr : ∀ a ∈ l.dropLast, (nget t a).right = (nget s a).right)
    (hl : ∀ b ∈ l.tail, (nget t b).left = (nget s b).left)
    (hc : l.Chain' (fun a b => (nget s a).right = b ∧ (nget s b).left = a)) :
    l.Chain' (fun a b => (nget t a).right = b ∧ (nget t b).left = a) := by
  induction l with
  | nil => simp
  | cons a l ih =>
    cases l with
    | nil => simp
    | cons b m =>
      rw [List.chain'_cons] at hc ⊢
      refine ⟨⟨?_, ?_⟩, ?_⟩
      · rw [hr a (by simp)]
        exact hc.1.1
      · rw [hl b (by simp)]
        exact hc.1.2
      · refine ih ?_ ?_ hc.2
        · intro u hu
          exact hr u (by simp [hu])
        · intro u hu
          refine hl u ?_
          simp only [List.tail_cons] at hu ⊢
          exact List.mem_cons_of_mem b hu

theorem getLastD_mem_of_ne_nil {l : List NodeId} (d : NodeId) (h : l ≠ []) :
    l.getLastD d ∈ l := by
  induction l with
  | nil => exact absurd rfl h
  | cons a t ih =>
    cases ht : t with
    | nil => simp [List.getLastD]
    | cons b u =>
      rw [getLastD_cons_of_ne_nil a d (by simp [ht])]
      exact List.mem_cons_of_mem a (ht ▸ ih (by simp [ht]))

theorem getLast?_eq_getLastD_of_ne_nil {l : List NodeId} (d : NodeId) (h : l ≠ []) :
    l.getLast? = some (l.getLastD d) := by
  cases hq : l.getLast? with
  | none => exact absurd (List.getLast?_eq_none_iff.mp hq) h
  | some a =>
    rw [List.getLastD_eq_getLast?, hq]
    rfl

theorem getLastD_not_mem_dropLast {l : List NodeId} (d : NodeId) (h : l ≠ [])
    (hn : l.Nodup) : l.getLastD d ∉ l.dropLast := by
  have he : l.dropLast ++ [l.getLast h] = l := List.dropLast_append_getLast h
  have hd : l.getLastD d = l.getLast h := by
    rw [List.getLastD_eq_getLast?, List.getLast?_eq_getLast l h]
    rfl
  rw [hd]
  rw [← he] at hn
  have hdisj := List.disjoint_of_nodup_append hn
  intro hmem
  exact hdisj hmem (by simp)

/-- Splicing a detached node `other` to the left of the ring head `x`
(the complete variant's `insertLeft`) succeeds and extends the ring by
`other` at the end of its rightward order. -/
theorem insertLeft_ring (s : Store V P) (x other : NodeId) (rest : List NodeId)
    (hring : IsRing s (x :: rest))
    (hb : ∀ i ∈ x :: rest, i < s.length)
    (ho : other ∉ x :: rest) (holt : other < s.length) :
    (insertLeft s (some x) (some other)).1 = .ok () ∧
    IsRing (insertLeft s (some x) (some other)).2 ((x :: rest) ++ [other]) := by
  obtain ⟨-, hnodup, hchain, hwr, hwl⟩ := hring
  have hxlt : x < s.length := hb x (by simp)
  have hLmem : (x :: rest).getLastD 0 ∈ x :: rest := getLastD_mem_of_ne_nil 0 (by simp)
  set L := (x :: rest).getLastD 0 with hLdef
  have hLlt : L < s.length := hb L hLmem
  have hLother : L ≠ other := fun hc => ho (hc ▸ hLmem)
  have hxother : x ≠ other := fun hc => ho (by simp [hc])
  have hwl1 : (nget s x).left = L := by simpa using hwl
  have hwr1 : (nget s L).right = x := by simpa using hwr
  refine ⟨by simp [insertLeft], ?_⟩
  simp only [insertLeft, hwl1]
  set s1 := upd s L (fun n => { n with right := other }) with hs1
  have hs1len : s1.length = s.length := length_upd ..
  have hs1x : (nget s1 x).left = L := by
    by_cases hcase : x = L
    · rw [hcase, hs1, nget_upd_self s L _ hLlt]
      exact hcase ▸ hwl1
    · rw [hs1, nget_upd_ne s L x _ hcase]
      exact hwl1
  simp only [hs1x]
  set s2 := upd s1 other (fun n => { n with left := L }) with hs2
  set s3 := upd s2 other (fun n => { n with right := x }) with hs3
  set s4 := upd s3 x (fun n => { n with left := other }) with hs4
  have hs2len : s2.length = s.length := by rw [hs2, length_upd, hs1len]
  have hs3len : s3.length = s.length := by rw [hs3, length_upd, hs2len]
  have hs4len : s4.length = s.length := by rw [hs4, length_upd, hs3len]
  have hoth1 : other < s1.length := by rw [hs1len]; exact holt
  have hoth2 : other < s2.length := by rw [hs2len]; exact holt
  have hx3 : x < s3.length := by rw [hs3len]; exact hxlt
  -- final pointer values
  have hother4 : (nget s4 other).left = L ∧ (nget s4 other).right = x := by
    have h2 : nget s2 other = { nget s1 other with left := L } :=
      nget_upd_self s1 other _ hoth1
    have h3 : nget s3 other = { nget s2 other with right := x } :=
      nget_upd_self s2 other _ hoth2
    have h4 : nget s4 other = nget s3 other := nget_upd_ne s3 x other _ (Ne.symm hxother)
    rw [h4, h3, h2]
    exact ⟨rfl, rfl⟩
  have hx4 : (nget s4 x).left = other := by
    have h4 : nget s4 x = { nget s3 x with left := other } :=
      nget_upd_self s3 x _ hx3
    rw [h4]
  have hx4r : (nget s4 x).right = (if x = L then other else (nget s x).right) := by
    have h4 : nget s4 x = { nget s3 x with left := other } :=
      nget_upd_self s3 x _ hx3
    have h3 : nget s3 x = nget s2 x := nget_upd_ne s2 other x _ hxother
    have h2 : nget s2 x = nget s1 x := nget_upd_ne s1 other x _ hxother
    rw [h4, h3, h2]
    by_cases hcase : x = L
    · rw [if_pos hcase, hs1, hcase, nget_upd_self s L _ hLlt]
    · rw [if_neg hcase, hs1, nget_upd_ne s L x _ hcase]
  have hL4r : (nget s4 L).right = other := by
    by_cases hcase : x = L
    · rw [← hcase, hx4r, if_pos hcase]
    · have h4 : nget s4 L = nget s3 L := nget_upd_ne s3 x L _ (fun hc => hcase hc.symm)
      have h3 : nget s3 L = nget s2 L := nget_upd_ne s2 other L _ hLother
      have h2 : nget s2 L = nget s1 L := nget_upd_ne s1 other L _ hLother
      rw [h4, h3, h2, hs1, nget_upd_self s L _ hLlt]
  -- untouched nodes
  have huntouched : ∀ j, j ≠ L → j ≠ other → j ≠ x → nget s4 j = nget s j := by
    intro j hjL hjo hjx
    rw [hs4, nget_upd_ne _ x j _ hjx, hs3, nget_upd_ne _ other j _ hjo,
      hs2, nget_upd_ne _ other j _ hjo, hs1, nget_upd_ne _ L j _ hjL]
  have hrightpres : ∀ j, j ≠ L → j ≠ other → (nget s4 j).right = (nget s j).right := by
    intro j hjL hjo
    by_cases hjx : j = x
    · subst hjx
      rw [hx4r, if_neg hjL]
    · rw [huntouched j hjL hjo hjx]
  have hleftpres : ∀ j, j ≠ x → j ≠ other → (nget s4 j).left = (nget s j).left := by
    intro j hjx hjo
    by_cases hjL : j = L
    · have h4 : nget s4 j = nget s3 j := nget_upd_ne s3 x j _ hjx
      have h3 : nget s3 j = nget s2 j := nget_upd_ne s2 other j _ hjo
      have h2 : nget s2 j = nget s1 j := nget_upd_ne s1 other j _ hjo
      rw [h4, h3, h2, hs1, hjL, nget_upd_self s L _ hLlt]
    · rw [huntouched j hjL hjo hjx]
  -- assemble the ring
  have hLnd : L ∉ (x :: rest).dropLast := by
    rw [hLdef]
    exact getLastD_not_mem_dropLast 0 (by simp) hnodup
  refine ⟨by simp, ?_, ?_, ?_, ?_⟩
  · rw [List.nodup_append]
    refine ⟨hnodup, List.nodup_singleton other, ?_⟩
    intro u hu hc
    rw [List.mem_singleton] at hc
    exact ho (hc ▸ hu)
  · -- the chain
    rw [List.chain'_append]
    refine ⟨?_, by simp, ?_⟩
    · refine chain'_ring_congr s s4 (x :: rest) ?_ ?_ hchain
      · intro a ha
        refine hrightpres a ?_ ?_
        · intro hc
          exact hLnd (hc ▸ ha)
        · intro hc
          exact ho (hc ▸ List.dropLast_subset _ ha)
      · intro u hu
        simp only [List.tail_cons] at hu
        refine hleftpres u ?_ ?_
        · exact fun hc => (List.nodup_cons.mp hnodup).1 (hc ▸ hu)
        · exact fun hc => ho (hc ▸ List.mem_cons_of_mem x hu)
    · intro a ha b hb2
      rw [getLast?_eq_getLastD_of_ne_nil 0 (by simp)] at ha
      simp only [Option.mem_def, Option.some_inj] at ha
      simp only [List.head?_cons, Option.mem_def, Option.some_inj] at hb2
      rw [← ha, ← hb2]
      exact ⟨hL4r, hother4.1⟩
  · rw [getLastD_concat]
    simpa using hother4.2
  · rw [getLastD_concat]
    simpa using hx4

/-- Rights-only version of the chain transport. -/
theorem chain'_rights_congr (s t : Store V P) (l : List NodeId)
    (hr : ∀ a ∈ l.dropLast, (nget t a).right = (nget s a).right)
    (hc : l.Chain' (fun a b => (nget s a).right = b)) :
    l.Chain' (fun a b => (nget t a).right = b) := by
  induction l with
  | nil => simp
  | cons a l ih =>
    cases l with
    | nil => simp
    | cons b m =>
      rw [List.chain'_cons] at hc ⊢
      refine ⟨?_, ?_⟩
      · rw [hr a (by simp)]
        exact hc.1
      · refine ih ?_ hc.2
        intro u hu
        exact hr u (by simp [hu])

theorem length_insertLeft (s : Store V P) (a b : Option NodeId) :
    (insertLeft s a b).2.length = s.length := by
  cases a <;> cases b <;> simp [insertLeft, upd]

theorem length_insertLeftV2 (s : Store V P) (a b : Option NodeId) :
    (insertLeftV2 s a b).2.length = s.length := by
  cases a <;> cases b <;> simp [insertLeftV2, upd]

/-- In the incomplete variant, `insertLeft` only relinks `fn.left` and
`other.right`: the rightward traversal from `x` reproduces the original ring
and never reaches `other`. -/
theorem insertLeftV2_ring (s : Store V P) (x other : NodeId) (rest : List NodeId)
    (hring : IsRing s (x :: rest))
    (hb : ∀ i ∈ x :: rest, i < s.length)
    (ho : other ∉ x :: rest) :
    (insertLeftV2 s (some x) (some other)).1 = .ok () ∧
    ringFrom (insertLeftV2 s (some x) (some other)).2 x = x :: rest := by
  obtain ⟨-, hnodup, hchain, hwr, hwl⟩ := hring
  refine ⟨by simp [insertLeftV2], ?_⟩
  simp only [insertLeftV2]
  set s1 := upd s x (fun n => { n with left := other }) with hs1
  set s2 := upd s1 other (fun n => { n with right := x }) with hs2
  have hrpres : ∀ j ∈ x :: rest, (nget s2 j).right = (nget s j).right := by
    intro j hj
    have hjo : j ≠ other := fun hc => ho (hc ▸ hj)
    rw [hs2, nget_upd_ne s1 other j _ hjo, hs1]
    by_cases hjx : j = x
    · rw [hjx, nget_upd_self s x _ (hb x (by simp))]
    · rw [nget_upd_ne s x j _ hjx]
  refine ringFrom_spec s2 x rest ?_ ?_ hnodup ?_
  · refine chain'_rights_congr s s2 (x :: rest) ?_ (hchain.imp fun a b hab => hab.1)
    intro a ha
    exact hrpres a (List.dropLast_subset _ ha)
  · rw [hrpres _ (getLastD_mem_of_ne_nil 0 (by simp))]
    simpa using hwr
  · have h1 : (x :: rest).length ≤ s.length :=
      nodup_lt_length hnodup hb
    have h2 : s2.length = s.length := by
      rw [hs2, length_upd, hs1, length_upd]
    omega

/-- C8 (amended): `insertLeft` fails with the nil-node error when either
reference is nil, in both node-layer variants.  For a singleton `other`, the
postcondition — a rightward traversal starting at `self` visits all former
members of both lists exactly once — holds in the complete variant, where the
traversal becomes the old ring with `other` appended; it fails in the
`part_002` variant, which relinks only `self.left` and `other.right`, so the
traversal reproduces exactly `self`'s former list and never visits `other`. -/
theorem c8_amended (s : Store V P) (x other : NodeId) (rest : List NodeId)
    (hring : IsRing s (x :: rest))
    (hb : ∀ i ∈ x :: rest, i < s.length)
    (ho : other ∉ x :: rest) (holt : other < s.length) :
    (∀ (t : Store V P) (o : Option NodeId),
      (insertLeft t none o).1 = .error .nilFnode ∧
      (insertLeft t o none).1 = .error .nilFnode ∧
      (insertLeftV2 t none o).1 = .error .nilFnode ∧
      (insertLeftV2 t o none).1 = .error .nilFnode) ∧
    (insertLeft s (some x) (some other)).1 = .ok () ∧
    ringFrom (insertLeft s (some x) (some other)).2 x = (x :: rest) ++ [other] ∧
    ((x :: rest) ++ [other]).Nodup ∧
    (insertLeftV2 s (some x) (some other)).1 = .ok () ∧
    ringFrom (insertLeftV2 s (some x) (some other)).2 x = x :: rest ∧
    other ∉ x :: rest := by
  obtain ⟨hok, hring2⟩ := insertLeft_ring s x other rest hring hb ho holt
  obtain ⟨hok2, htrav2⟩ := insertLeftV2_ring s x other rest hring hb ho
  have hnil : ∀ (t : Store V P) (o : Option NodeId),
      (insertLeft t none o).1 = .error .nilFnode ∧
      (insertLeft t o none).1 = .error .nilFnode ∧
      (insertLeftV2 t none o).1 = .error .nilFnode ∧
      (insertLeftV2 t o none).1 = .error .nilFnode := by
    intro t o
    refine ⟨by cases o <;> rfl, by cases o <;> rfl, by cases o <;> rfl, by cases o <;> rfl⟩
  have hnodup2 : ((x :: rest) ++ [other]).Nodup := hring2.2.1
  refine ⟨hnil, hok, ?_, hnodup2, hok2, htrav2, ho⟩
  have hcons : (x :: rest) ++ [other] = x :: (rest ++ [other]) := by simp
  rw [hcons] at hring2 hnodup2 ⊢
  refine ringFrom_isRing _ x (rest ++ [other]) hring2 ?_
  have hlen1 : (x :: rest).length ≤ s.length :=
    nodup_lt_length (hring.2.1) hb
  have hlen2 : (insertLeft s (some x) (some other)).2.length = s.length :=
    length_insertLeft s (some x) (some other)
  simp only [List.length_cons, List.length_append, List.length_singleton,
    List.length_nil] at hlen1 ⊢
  omega

/-- A two-node ring (ids 0, 1) plus a detached singleton (id 2). -/
def s3w : Store Int Int :=
  [{ Value := 10, priority := 10, bereaved := false, parent := none,
     children := none, left := 1, right := 1, degree := 0 },
   { Value := 11, priority := 11, bereaved := false, parent := none,
     children := none, left := 0, right := 0, degree := 0 },
   newFnode 12 12 2]

/-- C8 (witness): splicing the singleton 2 into the two-node ring 0-1. -/
theorem c8_amended_witness :
    (insertLeft s3w (some 0) (some 2)).1 = .ok () ∧
    ringFrom (insertLeft s3w (some 0) (some 2)).2 0 = [0, 1, 2] ∧
    ([0, 1, 2] : List NodeId).Nodup ∧
    (insertLeftV2 s3w (some 0) (some 2)).1 = .ok () ∧
    ringFrom (insertLeftV2 s3w (some 0) (some 2)).2 0 = [0, 1] := by
  have h := c8_amended s3w 0 2 [1] (by decide) (by decide) (by decide) (by decide)
  exact ⟨h.2.1, h.2.2.1, h.2.2.2.1, h.2.2.2.2.1, h.2.2.2.2.2.1⟩

/-! ## Frame lemmas: structural operations never touch values or priorities -/

/-- Stores of equal extent whose nodes agree on `Value` and `priority`. -/
def SameVP (s t : Store V P) : Prop :=
  t.length = s.length ∧
  ∀ i, (nget t i).Value = (nget s i).Value ∧ (nget t i).priority = (nget s i).priority

theorem SameVP.refl (s : Store V P) : SameVP s s :=
  ⟨Eq.refl _, fun _ => ⟨Eq.refl _, Eq.refl _⟩⟩

theorem SameVP.trans {s t u : Store V P} (h1 : SameVP s t) (h2 : SameVP t u) :
    SameVP s u :=
  ⟨h2.1.trans h1.1, fun i =>
    ⟨(h2.2 i).1.trans (h1.2 i).1, (h2.2 i).2.trans (h1.2 i).2⟩⟩

theorem nget_upd_out (s : Store V P) (i : NodeId) (f : Fnode V P → Fnode V P)
    (h : s.length ≤ i) : upd s i f = s := by
  unfold upd
  exact List.set_eq_of_length_le h

theorem sameVP_upd (s : Store V P) (i : NodeId) (f : Fnode V P → Fnode V P)
    (hf : ∀ n, (f n).Value = n.Value ∧ (f n).priority = n.priority) :
    SameVP s (upd s i f) := by
  refine ⟨length_upd .., fun j => ?_⟩
  by_cases hji : j = i
  · subst hji
    by_cases hlt : j < s.length
    · rw [nget_upd_self s j f hlt]
      exact hf _
    · rw [nget_upd_out s j f (Nat.le_of_not_lt hlt)]
      exact ⟨Eq.refl _, Eq.refl _⟩
  · rw [nget_upd_ne s i j f hji]
    exact ⟨Eq.refl _, Eq.refl _⟩

/-- `upd` with a function that only changes structural fields, applied any
number of times, stays in `SameVP`; the following record the per-operation
facts in the equation style used at call sites. -/
theorem sameVP_insertLeft (s : Store V P) (a b : Option NodeId) :
    ∀ r t, insertLeft s a b = (r, t) → SameVP s t := by
  intro r t h
  cases a with
  | none =>
    simp only [insertLeft] at h
    injection h with h1 h2
    subst h2
    exact SameVP.refl s
  | some a =>
    cases b with
    | none =>
      simp only [insertLeft] at h
      injection h with h1 h2
      subst h2
      exact SameVP.refl s
    | some b =>
      simp only [insertLeft] at h
      injection h with h1 h2
      subst h2
      refine SameVP.trans ?_ (sameVP_upd _ _ _ fun n => ⟨rfl, rfl⟩)
      refine SameVP.trans ?_ (sameVP_upd _ _ _ fun n => ⟨rfl, rfl⟩)
      refine SameVP.trans ?_ (sameVP_upd _ _ _ fun n => ⟨rfl, rfl⟩)
      exact sameVP_upd _ _ _ fun n => ⟨rfl, rfl⟩

theorem sameVP_insertChild (s : Store V P) (a b : Option NodeId) :
    ∀ r t, insertChild s a b = (r, t) → SameVP s t := by
  intro r t h
  cases a with
  | none =>
    simp only [insertChild] at h
    injection h with h1 h2
    subst h2
    exact SameVP.refl s
  | some a =>
    cases b with
    | none =>
      simp only [insertChild] at h
      injection h with h1 h2
      subst h2
      exact SameVP.refl s
    | some b =>
      simp only [insertChild] at h
      split at h
      · injection h with h1 h2
        subst h2
        refine SameVP.trans ?_ (sameVP_upd _ _ _ fun n => ⟨rfl, rfl⟩)
        refine SameVP.trans ?_ (sameVP_upd _ _ _ fun n => ⟨rfl, rfl⟩)
        exact sameVP_upd _ _ _ fun n => ⟨rfl, rfl⟩
      · split at h
        · next u t2 heq =>
          injection h with h1 h2
          subst h2
          refine SameVP.trans ?_ (sameVP_upd _ _ _ fun n => ⟨rfl, rfl⟩)
          refine SameVP.trans ?_ (sameVP_upd _ _ _ fun n => ⟨rfl, rfl⟩)
          exact sameVP_insertLeft s (some _) (some b) _ _ heq
        · next e t2 heq =>
          injection h with h1 h2
          subst h2
          exact sameVP_insertLeft s (some _) (some b) _ _ heq

theorem sameVP_removeChild (s : Store V P) (a : Option NodeId) (child : NodeId) :
    ∀ r t, removeChild s a child = (r, t) → SameVP s t := by
  intro r t h
  cases a with
  | none =>
    simp only [removeChild] at h
    injection h with h1 h2
    subst h2
    exact SameVP.refl s
  | some a =>
    simp only [removeChild] at h
    split at h
    · injection h with h1 h2
      subst h2
      exact SameVP.refl s
    · split at h
      · injection h with h1 h2
        subst h2
        exact SameVP.refl s
      · split at h
        · split at h
          · injection h with h1 h2
            subst h2
            refine SameVP.trans ?_ (sameVP_upd _ _ _ fun n => ⟨rfl, rfl⟩)
            refine SameVP.trans ?_ (sameVP_upd _ _ _ fun n => ⟨rfl, rfl⟩)
            exact sameVP_upd _ _ _ fun n => ⟨rfl, rfl⟩
          · injection h with h1 h2
            subst h2
            refine SameVP.trans ?_ (sameVP_upd _ _ _ fun n => ⟨rfl, rfl⟩)
            refine SameVP.trans ?_ (sameVP_upd _ _ _ fun n => ⟨rfl, rfl⟩)
            refine SameVP.trans ?_ (sameVP_upd _ _ _ fun n => ⟨rfl, rfl⟩)
            exact sameVP_upd _ _ _ fun n => ⟨rfl, rfl⟩
        · split at h
          · injection h with h1 h2
            subst h2
            refine SameVP.trans ?_ (sameVP_upd _ _ _ fun n => ⟨rfl, rfl⟩)
            exact sameVP_upd _ _ _ fun n => ⟨rfl, rfl⟩
          · injection h with h1 h2
            subst h2
            refine SameVP.trans ?_ (sameVP_upd _ _ _ fun n => ⟨rfl, rfl⟩)
            refine SameVP.trans ?_ (sameVP_upd _ _ _ fun n => ⟨rfl, rfl⟩)
            exact sameVP_upd _ _ _ fun n => ⟨rfl, rfl⟩

theorem sameVP_cut (c : Ctx P) (fh : Heap V P) (x y : NodeId) :
    ∀ r (fh2 : Heap V P), cut c fh x y = (r, fh2) →
    fh2.values = fh.values ∧ SameVP fh.nodes fh2.nodes := by
  intro r fh2 h
  simp only [cut] at h
  rcases hrc : removeChild fh.nodes (some y) x with ⟨rc, t⟩
  rw [hrc] at h
  have hrcVP : SameVP fh.nodes t := sameVP_removeChild fh.nodes (some y) x rc t hrc
  cases rc with
  | error e =>
    simp only at h
    injection h with h1 h2
    subst h2
    exact ⟨rfl, hrcVP⟩
  | ok u =>
    simp only at h
    rcases hins : insertLeft (upd (upd (upd (upd t x fun n => { n with left := x })
        x fun n => { n with right := x }) x fun n => { n with parent := none })
        x fun n => { n with bereaved := false }) fh.prioritaire (some x) with ⟨r2, t2⟩
    rw [hins] at h
    have hinsVP : SameVP fh.nodes t2 := by
      refine SameVP.trans ?_ (sameVP_insertLeft _ fh.prioritaire (some x) r2 t2 hins)
      refine SameVP.trans ?_ (sameVP_upd _ _ _ fun n => ⟨rfl, rfl⟩)
      refine SameVP.trans ?_ (sameVP_upd _ _ _ fun n => ⟨rfl, rfl⟩)
      refine SameVP.trans ?_ (sameVP_upd _ _ _ fun n => ⟨rfl, rfl⟩)
      refine SameVP.trans ?_ (sameVP_upd _ _ _ fun n => ⟨rfl, rfl⟩)
      exact hrcVP
    cases r2 with
    | error e =>
      injection h with h1 h2
      subst h2
      exact ⟨rfl, hinsVP⟩
    | ok u2 =>
      injection h with h1 h2
      subst h2
      exact ⟨rfl, hinsVP⟩

theorem sameVP_cascadingCut (c : Ctx P) (fuel : Nat) :
    ∀ (fh : Heap V P) (y : NodeId) r (fh2 : Heap V P),
    cascadingCut c fuel fh y = (r, fh2) →
    fh2.values = fh.values ∧ SameVP fh.nodes fh2.nodes := by
  induction fuel with
  | zero =>
    intro fh y r fh2 h
    simp only [cascadingCut] at h
    injection h with h1 h2
    subst h2
    exact ⟨rfl, SameVP.refl _⟩
  | succ fuel ih =>
    intro fh y r fh2 h
    simp only [cascadingCut] at h
    split at h
    · injection h with h1 h2
      subst h2
      exact ⟨rfl, SameVP.refl _⟩
    · split at h
      · injection h with h1 h2
        subst h2
        refine ⟨rfl, ?_⟩
        dsimp only
        exact sameVP_upd _ _ _ fun n => ⟨rfl, rfl⟩
      · rcases hcut : cut c fh y _ with ⟨rc, fhc⟩
        rw [hcut] at h
        have hcutf := sameVP_cut c fh y _ rc fhc hcut
        cases rc with
        | error e =>
          injection h with h1 h2
          subst h2
          exact hcutf
        | ok u =>
          simp only at h
          have hcc := ih fhc _ r fh2 h
          exact ⟨hcc.1.trans hcutf.1, hcutf.2.trans hcc.2⟩

/-! ## Claim C10 — IncreasePriority changes no values and no size -/

/-- C10: a successful public `IncreasePriority` leaves the index untouched
(hence the same value set and size), preserves every node's `Value`, and
changes no priority other than the targeted node's. -/
theorem c10_frame (c : Ctx P) (h h' : Heap V P) (v : V) (p : P)
    (hs : IncreasePriority c (some h) v p = (.ok (), some h')) :
    h'.values = h.values ∧
    h'.nodes.length = h.nodes.length ∧
    (∀ i, (nget h'.nodes i).Value = (nget h.nodes i).Value) ∧
    (∀ x, mapLookup h.values v = some x →
      ∀ i, i ≠ x → (nget h'.nodes i).priority = (nget h.nodes i).priority) := by
  simp only [IncreasePriority] at hs
  rcases hpr : h.prioritaire with _ | pr
  · simp only [hpr] at hs
    simp at hs
  · simp only [hpr] at hs
    cases hsent : prioritiesEqual c p c.highestPriority with
    | true =>
      rw [hsent] at hs
      simp only [if_true] at hs
      simp at hs
    | false =>
      rw [hsent] at hs
      simp only [Bool.false_eq_true, if_false] at hs
      rcases hinc : increasePriority c h v p with ⟨r, h2⟩
      rw [hinc] at hs
      simp only [Prod.mk.injEq, Option.some_inj] at hs
      obtain ⟨rfl, rfl⟩ := hs
      simp only [increasePriority] at hinc
      rcases hx : mapLookup h.values v with _ | x
      · simp only [hx] at hinc
        simp at hinc
      · simp only [hx] at hinc
        cases hold : c.higherThan (nget h.nodes x).priority p with
        | true =>
          rw [hold] at hinc
          simp only [if_true] at hinc
          simp at hinc
        | false =>
          rw [hold] at hinc
          simp only [Bool.false_eq_true, if_false] at hinc
          set ns := upd h.nodes x (fun n => { n with priority := p }) with hns
          -- facts about the priority write
          have hnslen : ns.length = h.nodes.length := length_upd ..
          have hnsval : ∀ i, (nget ns i).Value = (nget h.nodes i).Value := by
            intro i
            by_cases hix : i = x
            · subst hix
              by_cases hlt : i < h.nodes.length
              · rw [hns, nget_upd_self h.nodes i _ hlt]
              · rw [hns, nget_upd_out h.nodes i _ (Nat.le_of_not_lt hlt)]
            · rw [hns, nget_upd_ne h.nodes x i _ hix]
          have hnsprio : ∀ i, i ≠ x → (nget ns i).priority = (nget h.nodes i).priority := by
            intro i hix
            rw [hns, nget_upd_ne h.nodes x i _ hix]
          -- a common finishing step for each branch
          have main : ∀ (st : Heap V P), st.values = h.values → SameVP ns st.nodes →
              h2.values = st.values → h2.nodes = st.nodes →
              h2.values = h.values ∧
              h2.nodes.length = h.nodes.length ∧
              (∀ i, (nget h2.nodes i).Value = (nget h.nodes i).Value) ∧
              (∀ x2, some x = some x2 →
                ∀ i, i ≠ x2 → (nget h2.nodes i).priority = (nget h.nodes i).priority) := by
            intro st hv hVP hfv hfn
            refine ⟨hfv.trans hv, ?_, ?_, ?_⟩
            · rw [hfn, hVP.1, hnslen]
            · intro i
              rw [hfn, (hVP.2 i).1, hnsval i]
            · intro x2 hx2 i hix
              rw [Option.some_inj] at hx2
              subst hx2
              rw [hfn, (hVP.2 i).2, hnsprio i hix]
          -- the tail of increasePriority shared by all branches
          have tail : ∀ (st : Heap V P), st.values = h.values → SameVP ns st.nodes →
              (match st.prioritaire with
                | none => (Except.error Err.nilDereference, st)
                | some pr2 =>
                  if c.higherThan (nget st.nodes x).priority (nget st.nodes pr2).priority
                  then (Except.ok (), { st with prioritaire := some x })
                  else (Except.ok (), st)) = (Except.ok (), h2) →
              h2.values = h.values ∧
              h2.nodes.length = h.nodes.length ∧
              (∀ i, (nget h2.nodes i).Value = (nget h.nodes i).Value) ∧
              (∀ x2, some x = some x2 →
                ∀ i, i ≠ x2 → (nget h2.nodes i).priority = (nget h.nodes i).priority) := by
            intro st hv hVP htl
            rcases hpr2 : st.prioritaire with _ | pr2
            · simp only [hpr2] at htl
              simp at htl
            · simp only [hpr2] at htl
              cases hup : c.higherThan (nget st.nodes x).priority (nget st.nodes pr2).priority with
              | true =>
                rw [hup] at htl
                simp only [if_true, Prod.mk.injEq] at htl
                exact main st hv hVP (by rw [← htl.2]) (by rw [← htl.2])
              | false =>
                rw [hup] at htl
                simp only [Bool.false_eq_true, if_false, Prod.mk.injEq] at htl
                exact main st hv hVP (by rw [← htl.2]) (by rw [← htl.2])
          rcases hpar : (nget ns x).parent with _ | y
          · simp only [hpar] at hinc
            exact tail { h with nodes := ns } rfl (SameVP.refl ns) hinc
          · simp only [hpar] at hinc
            cases hhi : c.higherThan (nget ns x).priority (nget ns y).priority with
            | false =>
              rw [hhi] at hinc
              simp only [Bool.false_eq_true, if_false] at hinc
              exact tail { h with nodes := ns } rfl (SameVP.refl ns) hinc
            | true =>
              rw [hhi] at hinc
              simp only [if_true] at hinc
              rcases hcut : cut c { h with nodes := ns } x y with ⟨rc, fhc⟩
              rw [hcut] at hinc
              have hcutf := sameVP_cut c { h with nodes := ns } x y rc fhc hcut
              cases rc with
              | error e =>
                simp at hinc
              | ok u =>
                simp only at hinc
                rcases hcc : cascadingCut c (fhc.nodes.length + 1) fhc y with ⟨rcc, fhcc⟩
                rw [hcc] at hinc
                have hccf := sameVP_cascadingCut c (fhc.nodes.length + 1) fhc y rcc fhcc hcc
                cases rcc with
                | error e =>
                  simp at hinc
                | ok u2 =>
                  simp only at hinc
                  refine tail fhcc ?_ ?_ hinc
                  · rw [hccf.1, hcutf.1]
                  · exact SameVP.trans hcutf.2 hccf.2

/-- Heap after the spec's increase-then-pop scenario's increase. -/
def h6after : Heap Int Int :=
  heapAfter minCtx
    (pushesInt [(1, 1), (2, 2), (3, 3), (4, 4), (5, 5), (6, 6)] ++
      [Op.pop, Op.increase 6 0])

/-- C10 (witness): the successful `IncreasePriority(6, 0)` of the spec's
scenario 5, instantiated at node 0 (value 1's slot) and the targeted node 5. -/
theorem c10_frame_witness :
    h6after.values = h6inc.values ∧
    h6after.nodes.length = h6inc.nodes.length ∧
    (nget h6after.nodes 0).Value = (nget h6inc.nodes 0).Value ∧
    (nget h6after.nodes 0).priority = (nget h6inc.nodes 0).priority := by
  have h := c10_frame minCtx h6inc h6after 6 0 (by decide)
  exact ⟨h.1, h.2.1, h.2.2.1 0, h.2.2.2 5 (by decide) 0 (by decide)⟩

/-! ## Claim C4 — Push -/

/-- C4: `Push` fails with the nil-heap error on a nil heap, with the
reserved-priority error when the priority is comparator-equal to the
sentinel, and with the duplicate-value contract violation when the value is
indexed, leaving the heap unchanged in each case.  Otherwise it allocates a
fresh singleton node carrying the value and priority, records it in the
index, makes it the head of an empty heap, and on a non-empty heap splices
it as the left sibling of the head — head's `left` and the old left
neighbour's `right` now address the new node, every other node is untouched —
and moves `head` to the new node exactly when the new priority is strictly
higher.  (The splice equalities assume the head and its left neighbour are
genuine store addresses, which holds for every heap the code builds.) -/
theorem c4_push_spec (c : Ctx P) (h : Heap V P) (v : V) (p : P) :
    (Push c none v p = (.error .nilHeap, none)) ∧
    (prioritiesEqual c p c.highestPriority = true →
      Push c (some h) v p = (.error .reservedPriority, some h)) ∧
    (prioritiesEqual c p c.highestPriority = false →
      (mapLookup h.values v).isSome = true →
      Push c (some h) v p = (.error .duplicateValue, some h)) ∧
    (prioritiesEqual c p c.highestPriority = false →
      mapLookup h.values v = none →
      h.prioritaire = none →
      Push c (some h) v p = (.ok (),
        some { prioritaire := some h.nodes.length,
               values := mapInsert h.values v h.nodes.length,
               nodes := h.nodes ++ [newFnode v p h.nodes.length] })) ∧
    (∀ pr, prioritiesEqual c p c.highestPriority = false →
      mapLookup h.values v = none →
      h.prioritaire = some pr →
      pr < h.nodes.length →
      (nget h.nodes pr).left < h.nodes.length →
      ∀ r fh2, Push c (some h) v p = (r, fh2) →
        r = .ok () ∧
        ∀ h2, fh2 = some h2 →
          h2.values = mapInsert h.values v h.nodes.length ∧
          h2.nodes.length = h.nodes.length + 1 ∧
          (nget h2.nodes h.nodes.length).Value = v ∧
          (nget h2.nodes h.nodes.length).priority = p ∧
          (nget h2.nodes h.nodes.length).bereaved = false ∧
          (nget h2.nodes h.nodes.length).parent = none ∧
          (nget h2.nodes h.nodes.length).children = none ∧
          (nget h2.nodes h.nodes.length).degree = 0 ∧
          (nget h2.nodes h.nodes.length).right = pr ∧
          (nget h2.nodes h.nodes.length).left = (nget h.nodes pr).left ∧
          (nget h2.nodes pr).left = h.nodes.length ∧
          (nget h2.nodes (nget h.nodes pr).left).right = h.nodes.length ∧
          (nget h2.nodes pr).priority = (nget h.nodes pr).priority ∧
          (∀ j, j < h.nodes.length → j ≠ pr → j ≠ (nget h.nodes pr).left →
            nget h2.nodes j = nget h.nodes j) ∧
          h2.prioritaire = (if c.higherThan p (nget h.nodes pr).priority
            then some h.nodes.length else some pr)) := by
  refine ⟨rfl, ?_, ?_, ?_, ?_⟩
  · intro hsent
    simp [Push, hsent]
  · intro hsent hdup
    simp [Push, hsent, hdup]
  · intro hsent hlook hpr
    simp [Push, hsent, hlook, hpr]
  · intro pr hsent hlook hpr hprlt hLlt r fh2 hres
    simp only [Push, hsent, Bool.false_eq_true, if_false, hlook, Option.isSome_none,
      hpr, insertLeft] at hres
    set id := h.nodes.length with hid
    set nodes0 : Store V P := h.nodes ++ [newFnode v p id] with hnodes0
    have hn0len : nodes0.length = id + 1 := by
      rw [hnodes0]
      simp
    have hprlt0 : pr < nodes0.length := by
      rw [hn0len]
      exact Nat.lt_succ_of_lt hprlt
    have hn0pr : nget nodes0 pr = nget h.nodes pr := nget_append_lt h.nodes _ pr hprlt
    have hn0id : nget nodes0 id = newFnode v p id := nget_append_self h.nodes _
    set L := (nget h.nodes pr).left with hL
    have hidpr : pr ≠ id := Nat.ne_of_lt hprlt
    have hidL : L ≠ id := Nat.ne_of_lt hLlt
    have hLlt0 : L < nodes0.length := by
      rw [hn0len]
      exact Nat.lt_succ_of_lt hLlt
    rw [hn0pr, ← hL] at hres
    set s1 := upd nodes0 L (fun n => { n with right := id }) with hs1
    have hs1len : s1.length = nodes0.length := length_upd ..
    have hs1pr : (nget s1 pr).left = L := by
      by_cases hLpr : pr = L
      · rw [hs1, ← hLpr, nget_upd_self nodes0 pr _ hprlt0]
        show (nget nodes0 pr).left = pr
        rw [hn0pr, ← hL]
        exact hLpr.symm
      · rw [hs1, nget_upd_ne nodes0 L pr _ hLpr, hn0pr]
    rw [hs1pr] at hres
    set s2 := upd s1 id (fun n => { n with left := L }) with hs2
    set s3 := upd s2 id (fun n => { n with right := pr }) with hs3
    set s4 := upd s3 pr (fun n => { n with left := id }) with hs4
    have hs2len : s2.length = nodes0.length := by rw [hs2, length_upd, hs1len]
    have hs3len : s3.length = nodes0.length := by rw [hs3, length_upd, hs2len]
    have hs4len : s4.length = nodes0.length := by rw [hs4, length_upd, hs3len]
    have hidlt1 : id < s1.length := by
      rw [hs1len, hn0len]
      exact Nat.lt_succ_self id
    have hidlt2 : id < s2.length := by
      rw [hs2len, hn0len]
      exact Nat.lt_succ_self id
    have hprlt3 : pr < s3.length := by
      rw [hs3len]
      exact hprlt0
    -- the new node's final state
    have hs4id : nget s4 id = { newFnode v p id with left := L, right := pr } := by
      rw [hs4, nget_upd_ne s3 pr id _ (Ne.symm hidpr), hs3, nget_upd_self s2 id _ hidlt2,
        hs2, nget_upd_self s1 id _ hidlt1, hs1, nget_upd_ne nodes0 L id _ (Ne.symm hidL), hn0id]
    -- head's final left pointer, and its preserved priority
    have hs4pr : (nget s4 pr).left = id ∧
        (nget s4 pr).priority = (nget h.nodes pr).priority := by
      rw [hs4, nget_upd_self s3 pr _ hprlt3]
      refine ⟨rfl, ?_⟩
      simp only
      rw [hs3, nget_upd_ne s2 id pr _ hidpr, hs2, nget_upd_ne s1 id pr _ hidpr]
      by_cases hLpr : pr = L
      · rw [hs1, ← hLpr, nget_upd_self nodes0 pr _ hprlt0]
        simp only
        rw [hn0pr]
      · rw [hs1, nget_upd_ne nodes0 L pr _ hLpr, hn0pr]
    -- the old left neighbour's final right pointer
    have hs4L : (nget s4 L).right = id := by
      by_cases hLpr : pr = L
      · rw [← hLpr, hs4, nget_upd_self s3 pr _ hprlt3]
        simp only
        rw [hs3, nget_upd_ne s2 id pr _ hidpr, hs2, nget_upd_ne s1 id pr _ hidpr,
          hs1, ← hLpr, nget_upd_self nodes0 pr _ hprlt0]
      · rw [hs4, nget_upd_ne s3 pr L _ (fun hc => hLpr hc.symm), hs3,
          nget_upd_ne s2 id L _ hidL, hs2, nget_upd_ne s1 id L _ hidL,
          hs1, nget_upd_self nodes0 L _ hLlt0]
    -- untouched nodes
    have hs4un : ∀ j, j < h.nodes.length → j ≠ pr → j ≠ L → nget s4 j = nget h.nodes j := by
      intro j hjlt hjpr hjL
      have hjid : j ≠ id := by
        rw [hid]
        exact Nat.ne_of_lt hjlt
      rw [hs4, nget_upd_ne s3 pr j _ hjpr, hs3, nget_upd_ne s2 id j _ hjid,
        hs2, nget_upd_ne s1 id j _ hjid, hs1, nget_upd_ne nodes0 L j _ hjL,
        hnodes0, nget_append_lt h.nodes _ j hjlt]
    -- reduce the head update
    rw [show (nget s4 pr).priority = (nget h.nodes pr).priority from hs4pr.2] at hres
    cases hcmp : c.higherThan p (nget h.nodes pr).priority with
    | true =>
      rw [hcmp] at hres
      simp only [if_true] at hres
      injection hres with hr hfh
      subst hr
      refine ⟨rfl, ?_⟩
      intro h2 hh2
      rw [← hfh] at hh2
      rw [Option.some_inj] at hh2
      subst hh2
      refine ⟨rfl, ?_, ?_⟩
      · show s4.length = h.nodes.length + 1
        rw [hs4len, hn0len, hid]
      rw [hs4id]
      exact ⟨rfl, rfl, rfl, rfl, rfl, rfl, rfl, rfl, hs4pr.1, hs4L, hs4pr.2, hs4un, rfl⟩
    | false =>
      rw [hcmp] at hres
      simp only [Bool.false_eq_true, if_false] at hres
      injection hres with hr hfh
      subst hr
      refine ⟨rfl, ?_⟩
      intro h2 hh2
      rw [← hfh] at hh2
      rw [Option.some_inj] at hh2
      subst hh2
      refine ⟨rfl, ?_, ?_⟩
      · show s4.length = h.nodes.length + 1
        rw [hs4len, hn0len, hid]
      rw [hs4id]
      exact ⟨rfl, rfl, rfl, rfl, rfl, rfl, rfl, rfl, hs4pr.1, hs4L, hs4pr.2, hs4un, rfl⟩

/-! ## The documented comparator contract does not support the universal
invariants

Spec §6 requires `higher` to be a strict connected relation only; it does not
require transitivity.  The tournament `tourB` (cycle `2 ≻ 1 ≻ 4 ≻ 2`)
satisfies the documented contract, yet a heap reachable by three successful
pushes violates head-maximality, and a four-push/four-pop run returns values
out of order.  The two theorems below record these refutations; they show
that the claims quantifying over all contract-satisfying comparators (C1 and
C2) are false as stated, and that any repair must strengthen the contract to
a strict total order. -/

theorem tourCtx_strict_connected : StrictConnected tourCtx := by
  refine ⟨?_, ?_, ?_⟩
  · intro x
    simp [tourCtx, tourB]
  · intro x y hxy
    by_cases hne : x = y
    · subst hne
      simp [tourCtx, tourB] at hxy
    · simp only [tourCtx, tourB] at hxy ⊢
      rw [if_neg hne] at hxy
      rw [if_neg (Ne.symm hne)]
      by_cases hin : 1 ≤ x ∧ x ≤ 4 ∧ 1 ≤ y ∧ y ≤ 4
      · obtain ⟨h1, h2, h3, h4⟩ := hin
        rw [if_pos ⟨h1, h2, h3, h4⟩] at hxy
        rw [if_pos ⟨h3, h4, h1, h2⟩]
        interval_cases x <;> interval_cases y <;> revert hxy <;> decide
      · rw [if_neg hin] at hxy
        have hin' : ¬(1 ≤ y ∧ y ≤ 4 ∧ 1 ≤ x ∧ x ≤ 4) := fun hc =>
          hin ⟨hc.2.2.1, hc.2.2.2, hc.1, hc.2.1⟩
        rw [if_neg hin']
        simp only [decide_eq_true_eq] at hxy
        simp only [decide_eq_false_iff_not]
        omega
  · intro x y hne
    simp only [tourCtx, tourB]
    rw [if_neg hne, if_neg (Ne.symm hne)]
    by_cases hin : 1 ≤ x ∧ x ≤ 4 ∧ 1 ≤ y ∧ y ≤ 4
    · obtain ⟨h1, h2, h3, h4⟩ := hin
      rw [if_pos ⟨h1, h2, h3, h4⟩, if_pos ⟨h3, h4, h1, h2⟩]
      interval_cases x <;> interval_cases y <;> first | exact absurd rfl hne | decide
    · have hin' : ¬(1 ≤ y ∧ y ≤ 4 ∧ 1 ≤ x ∧ x ≤ 4) := fun hc =>
        hin ⟨hc.2.2.1, hc.2.2.2, hc.1, hc.2.1⟩
      rw [if_neg hin, if_neg hin']
      simp only [decide_eq_true_eq]
      omega

/-- Under the documented (non-transitive) contract, three successful pushes
reach a heap whose head is not maximal among the roots: each push along the
cycle beats the current head (`4 ≻ 2`, then `1 ≻ 4`), while the untouched
root of priority 2 beats the final head of priority 1.  Together with
`tourCtx_strict_connected` this refutes the head-maximality part of the
universal-invariant claim as stated. -/
theorem tournament_headmax_violation :
    Reachable tourCtx (heapAfter tourCtx (pushesInt [(2, 2), (4, 4), (1, 1)])) ∧
    ¬ UniversalInvariants tourCtx (heapAfter tourCtx (pushesInt [(2, 2), (4, 4), (1, 1)])) := by
  constructor
  · have r0 : Reachable tourCtx (New : Heap Int Int) := Reachable.new
    have r1 := Reachable.step New (heapAfter tourCtx (pushesInt [(2, 2)]))
      (Op.push 2 2) r0 (by decide)
    have r2 := Reachable.step _ (heapAfter tourCtx (pushesInt [(2, 2), (4, 4)]))
      (Op.push 4 4) r1 (by decide)
    exact Reachable.step _ _ (Op.push 1 1) r2 (by decide)
  · intro hyp
    obtain ⟨_, _, _, _, hmax⟩ := hyp
    exact absurd (hmax 2 (by decide) 0 (by decide)) (by decide)

/-- Under the documented (non-transitive) contract, four successful pushes
followed by four pops return the values 3, 4, 2, 1 — and `4 ≻ 3`, so the
second pop is strictly higher priority than the first.  Together with
`tourCtx_strict_connected` this refutes the pop-ordering claim as stated. -/
theorem tournament_pops_unsorted :
    (runOps tourCtx (some New) (pushesInt [(1, 1), (4, 4), (2, 2), (3, 3)])).1 = .ok () ∧
    popsList tourCtx
      (runOps tourCtx (some New) (pushesInt [(1, 1), (4, 4), (2, 2), (3, 3)])).2 4
      = some [3, 4, 2, 1] ∧
    tourCtx.higherThan 4 3 = true := by
  refine ⟨by decide!, by decide!, by decide⟩

/-! ## Claim C9 — an error leaves the heap unchanged

The error checks of `Push` and the four early checks of the other operations
precede every mutation.  The remaining error exits are dead on well-formed
heaps: `insertLeft`, `insertChild` and `link` never fail on non-nil
arguments, the consolidate phase can only fail with the out-of-range panic or
the fuel artifact (neither is a returned Go `error`), and the cut chain and
the child-fostering loop fail only on stores whose parent/children pointers
are inconsistent, which the hypotheses below exclude. -/

theorem insertChild_some_ok (s : Store V P) (a b : NodeId) :
    ∀ r t, insertChild s (some a) (some b) = (r, t) → r = .ok () := by
  intro r t h
  rcases hc : (nget s a).children with _ | ch
  · simp only [insertChild, hc] at h
    injection h with h1 _
    exact h1.symm
  · simp only [insertChild, hc, insertLeft] at h
    injection h with h1 _
    exact h1.symm

theorem link_ok (s : Store V P) (y x : NodeId) :
    ∀ r t, link s y x = (r, t) → r = .ok () := by
  intro r t h
  simp only [link] at h
  split at h
  · next e s5 heq => exact absurd (insertChild_some_ok _ _ _ _ _ heq) (by simp)
  · next s5 heq =>
      injection h with h1 _
      exact h1.symm

theorem aget_err (A : List (Option NodeId)) (d : Int) (e : Err)
    (h : aget A d = .error e) : e = .indexOutOfRange := by
  simp only [aget] at h
  split at h
  · injection h with h1
    exact h1.symm
  · split at h
    · exact Except.noConfusion h
    · injection h with h1
      exact h1.symm

theorem aset_err (A : List (Option NodeId)) (d : Int) (x : Option NodeId) (e : Err)
    (h : aset A d x = .error e) : e = .indexOutOfRange := by
  simp only [aset] at h
  split at h
  · injection h with h1
    exact h1.symm
  · split at h
    · exact Except.noConfusion h
    · injection h with h1
      exact h1.symm

theorem consolidateInner_goerr (c : Ctx P) :
    ∀ (fuel : Nat) (s : Store V P) (A : List (Option NodeId)) (x : NodeId) (d : Int)
      (e : Err) (t : Store V P),
      consolidateInner c fuel s A x d = (.error e, t) → e.isGoError = false := by
  intro fuel
  induction fuel with
  | zero =>
    intro s A x d e t h
    simp only [consolidateInner] at h
    injection h with h1 _
    injection h1 with h1
    rw [← h1]
    rfl
  | succ fuel ih =>
    intro s A x d e t h
    simp only [consolidateInner] at h
    split at h
    · next e1 heq =>
      injection h with h1 _
      injection h1 with h1
      rw [← h1, aget_err A d e1 heq]
      rfl
    · next heq => exact absurd h (by simp)
    · next y0 heq =>
      split at h
      · next e2 s2 heq2 => exact absurd (link_ok _ _ _ _ _ heq2) (by simp)
      · next s2 heq2 =>
        split at h
        · next e3 heq3 =>
          injection h with h1 _
          injection h1 with h1
          rw [← h1, aset_err _ _ _ _ heq3]
          rfl
        · next A2 heq3 => exact ih s2 A2 _ _ e t h

theorem consolidateWalk_goerr (c : Ctx P) :
    ∀ (fuel : Nat) (s : Store V P) (A : List (Option NodeId)) (w endId : NodeId)
      (e : Err) (t : Store V P),
      consolidateWalk c fuel s A w endId = (.error e, t) → e.isGoError = false := by
  intro fuel
  induction fuel with
  | zero =>
    intro s A w endId e t h
    simp only [consolidateWalk] at h
    injection h with h1 _
    injection h1 with h1
    rw [← h1]
    rfl
  | succ fuel ih =>
    intro s A w endId e t h
    simp only [consolidateWalk] at h
    split at h
    · next e1 s1 heq =>
      injection h with h1 _
      injection h1 with h1
      rw [← h1]
      exact consolidateInner_goerr c _ _ _ _ _ e1 s1 heq
    · next x d A1 s1 heq =>
      split at h
      · next e2 heq2 =>
        injection h with h1 _
        injection h1 with h1
        rw [← h1, aset_err _ _ _ _ heq2]
        rfl
      · next A2 heq2 =>
        split at h
        · exact absurd h (by simp)
        · exact ih s1 A2 _ endId e t h

theorem consolidateRebuild_ok (c : Ctx P) :
    ∀ (A : List (Option NodeId)) (p : Option NodeId) (s : Store V P)
      (r : Except Err Unit) (q : Option NodeId) (t : Store V P),
      consolidateRebuild c A p s = (r, q, t) → r = .ok () := by
  intro A
  induction A with
  | nil =>
    intro p s r q t h
    simp only [consolidateRebuild] at h
    injection h with h1 _
    exact h1.symm
  | cons hd A ih =>
    intro p s r q t h
    rcases hd with _ | root
    · simp only [consolidateRebuild] at h
      exact ih p s r q t h
    · simp only [consolidateRebuild, insertLeft] at h
      split at h
      · exact ih _ _ r q t h
      · split at h
        · exact ih _ _ r q t h
        · exact ih _ _ r q t h

theorem consolidate_goerr (c : Ctx P) (fh : Heap V P) (e : Err) (fh2 : Heap V P)
    (h : consolidate c fh = (.error e, fh2)) : e.isGoError = false := by
  simp only [consolidate] at h
  split at h
  · injection h with h1 _
    injection h1 with h1
    rw [← h1]
    rfl
  · next pr =>
    split at h
    · next e1 s1 heq =>
      injection h with h1 _
      injection h1 with h1
      rw [← h1]
      exact consolidateWalk_goerr c _ _ _ _ _ e1 s1 heq
    · next A1 s1 heq =>
      rcases heq2 : consolidateRebuild c A1 none s1 with ⟨r1, q1, t1⟩
      rw [heq2] at h
      simp only at h
      injection h with h1 _
      rw [consolidateRebuild_ok c _ _ _ _ _ _ heq2] at h1
      exact Except.noConfusion h1

theorem pop_nogo (c : Ctx P) (h : Heap V P) (pr : NodeId)
    (hpr : h.prioritaire = some pr)
    (hfl : ∀ e s, fosterLoop c (h.nodes.length + 1) pr h.nodes = (.error e, s) →
      e.isGoError = false) :
    ∀ e fh2, Pop c (some h) = (.error e, fh2) → e.isGoError = false := by
  intro e fh2 hp
  simp only [Pop, hpr] at hp
  rcases hfl0 : fosterLoop c (h.nodes.length + 1) pr h.nodes with ⟨rf, sf⟩
  rw [hfl0] at hp
  cases rf with
  | error ef =>
    simp only [Prod.mk.injEq] at hp
    obtain ⟨h1, _⟩ := hp
    injection h1 with h1
    rw [← h1]
    exact hfl ef sf hfl0
  | ok uf =>
    simp only at hp
    split at hp
    · exact absurd hp (by simp)
    · split at hp
      · exact absurd hp (by simp)
      · next ec fhc heq =>
        split at hp
        · next he =>
          simp only [Prod.mk.injEq] at hp
          obtain ⟨h1, _⟩ := hp
          injection h1 with h1
          rw [← h1, he]
          rfl
        · simp only [Prod.mk.injEq] at hp
          obtain ⟨h1, _⟩ := hp
          injection h1 with h1
          rw [← h1]
          exact consolidate_goerr c _ ec fhc heq

theorem inc_goerr_frame (c : Ctx P) (h : Heap V P) (v : V) (p : P)
    (hcut : ∀ x y e fh2, mapLookup h.values v = some x →
      cut c { h with nodes := upd h.nodes x fun n => { n with priority := p } } x y
        = (.error e, fh2) → e.isGoError = false)
    (hcc : ∀ x y fh1 e fh3, mapLookup h.values v = some x →
      cut c { h with nodes := upd h.nodes x fun n => { n with priority := p } } x y
        = (.ok (), fh1) →
      cascadingCut c (fh1.nodes.length + 1) fh1 y = (.error e, fh3) →
        e.isGoError = false) :
    ∀ e fh', increasePriority c h v p = (.error e, fh') →
      e.isGoError = true → fh' = h := by
  intro e fh' hres hgo
  simp only [increasePriority] at hres
  rcases hx : mapLookup h.values v with _ | x
  · simp only [hx, Prod.mk.injEq] at hres
    exact hres.2.symm
  · simp only [hx] at hres
    cases hold : c.higherThan (nget h.nodes x).priority p with
    | true =>
      rw [hold] at hres
      simp only [if_true, Prod.mk.injEq] at hres
      exact hres.2.symm
    | false =>
      rw [hold] at hres
      simp only [Bool.false_eq_true, if_false] at hres
      set ns := upd h.nodes x (fun n => { n with priority := p }) with hns
      have tail : ∀ (st : Heap V P),
          (match st.prioritaire with
            | none => (Except.error Err.nilDereference, st)
            | some pr2 =>
              if c.higherThan (nget st.nodes x).priority (nget st.nodes pr2).priority
              then (Except.ok (), { st with prioritaire := some x })
              else (Except.ok (), st)) = (Except.error e, fh') → False := by
        intro st htl
        rcases hpr2 : st.prioritaire with _ | pr2
        · simp only [hpr2, Prod.mk.injEq] at htl
          obtain ⟨h1, _⟩ := htl
          injection h1 with h1
          rw [← h1] at hgo
          exact Bool.noConfusion hgo
        · simp only [hpr2] at htl
          cases hup : c.higherThan (nget st.nodes x).priority (nget st.nodes pr2).priority with
          | true =>
            rw [hup] at htl
            simp at htl
          | false =>
            rw [hup] at htl
            simp at htl
      rcases hpar : (nget ns x).parent with _ | y
      · simp only [hpar] at hres
        exact (tail { h with nodes := ns } hres).elim
      · simp only [hpar] at hres
        cases hhi : c.higherThan (nget ns x).priority (nget ns y).priority with
        | false =>
          rw [hhi] at hres
          simp only [Bool.false_eq_true, if_false] at hres
          exact (tail { h with nodes := ns } hres).elim
        | true =>
          rw [hhi] at hres
          simp only [if_true] at hres
          rcases hcutr : cut c { h with nodes := ns } x y with ⟨rc, fhc⟩
          rw [hcutr] at hres
          cases rc with
          | error ec =>
            simp only [Prod.mk.injEq] at hres
            obtain ⟨h1, _⟩ := hres
            injection h1 with h1
            have hng := hcut x y ec fhc hx hcutr
            rw [h1] at hng
            rw [hng] at hgo
            exact Bool.noConfusion hgo
          | ok u =>
            cases u
            simp only at hres
            rcases hccr : cascadingCut c (fhc.nodes.length + 1) fhc y with ⟨rcc, fhcc⟩
            rw [hccr] at hres
            cases rcc with
            | error ec =>
              simp only [Prod.mk.injEq] at hres
              obtain ⟨h1, _⟩ := hres
              injection h1 with h1
              have hng := hcc x y fhc ec fhcc hx hcutr hccr
              rw [h1] at hng
              rw [hng] at hgo
              exact Bool.noConfusion hgo
            | ok u2 =>
              simp only at hres
              exact (tail fhcc hres).elim

theorem inc_ok_prioritaire (c : Ctx P) (h : Heap V P) (v : V) (p : P) (fh1 : Heap V P)
    (hres : increasePriority c h v p = (.ok (), fh1)) :
    ∃ q, fh1.prioritaire = some q := by
  simp only [increasePriority] at hres
  rcases hx : mapLookup h.values v with _ | x
  · simp only [hx] at hres
    simp at hres
  · simp only [hx] at hres
    cases hold : c.higherThan (nget h.nodes x).priority p with
    | true =>
      rw [hold] at hres
      simp only [if_true] at hres
      simp at hres
    | false =>
      rw [hold] at hres
      simp only [Bool.false_eq_true, if_false] at hres
      set ns := upd h.nodes x (fun n => { n with priority := p }) with hns
      have tail : ∀ (st : Heap V P),
          (match st.prioritaire with
            | none => (Except.error Err.nilDereference, st)
            | some pr2 =>
              if c.higherThan (nget st.nodes x).priority (nget st.nodes pr2).priority
              then (Except.ok (), { st with prioritaire := some x })
              else (Except.ok (), st)) = (Except.ok (), fh1) →
          ∃ q, fh1.prioritaire = some q := by
        intro st htl
        rcases hpr2 : st.prioritaire with _ | pr2
        · simp only [hpr2] at htl
          simp at htl
        · simp only [hpr2] at htl
          cases hup : c.higherThan (nget st.nodes x).priority (nget st.nodes pr2).priority with
          | true =>
            rw [hup] at htl
            simp only [if_true, Prod.mk.injEq] at htl
            exact ⟨x, by rw [← htl.2]⟩
          | false =>
            rw [hup] at htl
            simp only [Bool.false_eq_true, if_false, Prod.mk.injEq] at htl
            exact ⟨pr2, by rw [← htl.2]; exact hpr2⟩
      rcases hpar : (nget ns x).parent with _ | y
      · simp only [hpar] at hres
        exact tail { h with nodes := ns } hres
      · simp only [hpar] at hres
        cases hhi : c.higherThan (nget ns x).priority (nget ns y).priority with
        | false =>
          rw [hhi] at hres
          simp only [Bool.false_eq_true, if_false] at hres
          exact tail { h with nodes := ns } hres
        | true =>
          rw [hhi] at hres
          simp only [if_true] at hres
          rcases hcutr : cut c { h with nodes := ns } x y with ⟨rc, fhc⟩
          rw [hcutr] at hres
          cases rc with
          | error ec => simp at hres
          | ok u =>
            cases u
            simp only at hres
            rcases hccr : cascadingCut c (fhc.nodes.length + 1) fhc y with ⟨rcc, fhcc⟩
            rw [hccr] at hres
            cases rcc with
            | error ec => simp at hres
            | ok u2 =>
              simp only at hres
              exact tail fhcc hres

/-- C9: whenever a public operation of the complete variant returns a Go
`error`, the heap is entirely unchanged.  A nil heap is returned as-is with
the nil-heap error by all four operations.  `Push`'s three error exits
precede every mutation unconditionally.  For `Pop`, `IncreasePriority` and
`Delete` the error exits that can fire on a well-formed heap all precede
mutation; the hypotheses state the well-formedness actually needed — the
child-fostering loop and the cut/cascading-cut chain never fail with a
returned Go error (on reachable heaps their failure exits are dead, since
every fostered child's parent pointer addresses the head and every cut
node's parent has a non-nil child list).  Panics and the fuel artifact are
not returned Go errors and are excluded by `Err.isGoError`. -/
theorem c9_error_frame (c : Ctx P) (h : Heap V P) (v : V) (p : P) :
    (Push c (none : Option (Heap V P)) v p = (.error .nilHeap, none) ∧
     Pop c (none : Option (Heap V P)) = (.error .nilHeap, none) ∧
     IncreasePriority c (none : Option (Heap V P)) v p = (.error .nilHeap, none) ∧
     Delete c (none : Option (Heap V P)) v = (.error .nilHeap, none)) ∧
    (∀ e fh2, Push c (some h) v p = (.error e, fh2) → fh2 = some h) ∧
    ((∀ pr, h.prioritaire = some pr →
        ∀ e s, fosterLoop c (h.nodes.length + 1) pr h.nodes = (.error e, s) →
          e.isGoError = false) →
      ∀ e fh2, Pop c (some h) = (.error e, fh2) → e.isGoError = true →
        fh2 = some h) ∧
    ((∀ x y e fh2, mapLookup h.values v = some x →
        cut c { h with nodes := upd h.nodes x fun n => { n with priority := p } } x y
          = (.error e, fh2) → e.isGoError = false) →
     (∀ x y fh1 e fh3, mapLookup h.values v = some x →
        cut c { h with nodes := upd h.nodes x fun n => { n with priority := p } } x y
          = (.ok (), fh1) →
        cascadingCut c (fh1.nodes.length + 1) fh1 y = (.error e, fh3) →
          e.isGoError = false) →
      ∀ e fh2, IncreasePriority c (some h) v p = (.error e, fh2) →
        e.isGoError = true → fh2 = some h) ∧
    ((∀ x y e fh2, mapLookup h.values v = some x →
        cut c { h with nodes := upd h.nodes x fun n => { n with priority := c.highestPriority } } x y
          = (.error e, fh2) → e.isGoError = false) →
     (∀ x y fh1 e fh3, mapLookup h.values v = some x →
        cut c { h with nodes := upd h.nodes x fun n => { n with priority := c.highestPriority } } x y
          = (.ok (), fh1) →
        cascadingCut c (fh1.nodes.length + 1) fh1 y = (.error e, fh3) →
          e.isGoError = false) →
     (∀ fh1 pr1, increasePriority c h v c.highestPriority = (.ok (), fh1) →
        fh1.prioritaire = some pr1 →
        ∀ e s, fosterLoop c (fh1.nodes.length + 1) pr1 fh1.nodes = (.error e, s) →
          e.isGoError = false) →
      ∀ e fh2, Delete c (some h) v = (.error e, fh2) → e.isGoError = true →
        fh2 = some h) := by
  refine ⟨⟨rfl, rfl, rfl, rfl⟩, ?_, ?_, ?_, ?_⟩
  · -- Push
    intro e fh2 hp
    simp only [Push] at hp
    cases hsent : prioritiesEqual c p c.highestPriority with
    | true =>
      rw [hsent] at hp
      simp only [if_true, Prod.mk.injEq] at hp
      exact hp.2.symm
    | false =>
      rw [hsent] at hp
      simp only [Bool.false_eq_true, if_false] at hp
      cases hdup : (mapLookup h.values v).isSome with
      | true =>
        rw [hdup] at hp
        simp only [if_true, Prod.mk.injEq] at hp
        exact hp.2.symm
      | false =>
        rw [hdup] at hp
        simp only [Bool.false_eq_true, if_false] at hp
        rcases hpr : h.prioritaire with _ | pr
        · simp only [hpr] at hp
          simp at hp
        · simp only [hpr, insertLeft] at hp
          split at hp <;> simp at hp
  · -- Pop
    intro hfoster e fh2 hp hgo
    rcases hpr : h.prioritaire with _ | pr
    · simp only [Pop, hpr, Prod.mk.injEq] at hp
      exact hp.2.symm
    · have hng := pop_nogo c h pr hpr (hfoster pr hpr) e fh2 hp
      rw [hng] at hgo
      exact Bool.noConfusion hgo
  · -- IncreasePriority
    intro hcut hcc e fh2 hres hgo
    simp only [IncreasePriority] at hres
    rcases hpr : h.prioritaire with _ | pr0
    · simp only [hpr, Prod.mk.injEq] at hres
      exact hres.2.symm
    · simp only [hpr] at hres
      cases hsent : prioritiesEqual c p c.highestPriority with
      | true =>
        rw [hsent] at hres
        simp only [if_true, Prod.mk.injEq] at hres
        exact hres.2.symm
      | false =>
        rw [hsent] at hres
        simp only [Bool.false_eq_true, if_false] at hres
        rcases hinc : increasePriority c h v p with ⟨r, h2⟩
        rw [hinc] at hres
        simp only [Prod.mk.injEq] at hres
        obtain ⟨hr, hfh⟩ := hres
        cases r with
        | ok u => exact absurd hr (by simp)
        | error ec =>
          injection hr with hr
          have hfr := inc_goerr_frame c h v p hcut hcc ec h2 hinc (by rw [hr]; exact hgo)
          rw [← hfh, hfr]
  · -- Delete
    intro hcut hcc hfos e fh2 hres hgo
    rcases hpr : h.prioritaire with _ | pr0
    · simp only [Delete, hpr, Prod.mk.injEq] at hres
      exact hres.2.symm
    · simp only [Delete, hpr] at hres
      rcases hinc : increasePriority c h v c.highestPriority with ⟨r, h2⟩
      rw [hinc] at hres
      cases r with
      | error ec =>
        simp only [Prod.mk.injEq] at hres
        obtain ⟨hr, hfh⟩ := hres
        injection hr with hr
        have hfr := inc_goerr_frame c h v c.highestPriority hcut hcc ec h2 hinc
          (by rw [hr]; exact hgo)
        rw [← hfh, hfr]
      | ok u =>
        cases u
        simp only at hres
        obtain ⟨q, hq⟩ := inc_ok_prioritaire c h v c.highestPriority h2 hinc
        rcases hpop : Pop c (some h2) with ⟨rp, fhp⟩
        rw [hpop] at hres
        cases rp with
        | ok vv => simp at hres
        | error ep =>
          simp only [Prod.mk.injEq] at hres
          obtain ⟨hr, hfh⟩ := hres
          injection hr with hr
          have hng := pop_nogo c h2 q hq (hfos h2 q hinc hq) ep fhp hpop
          rw [hr] at hng
          rw [hng] at hgo
          exact Bool.noConfusion hgo

/-- C9 (witness): the duplicate-value push, the empty-heap pop, and the
missing-value increase and delete, each on a concrete heap, all return their
Go error with the heap unchanged. -/
theorem c9_error_frame_witness :
    (Push minCtx (some h13) 13 5).2 = some h13 ∧
    (Pop minCtx (some (New : Heap Int Int))).2 = some (New : Heap Int Int) ∧
    (IncreasePriority minCtx (some h13) 99 7).2 = some h13 ∧
    (Delete minCtx (some h13) 99).2 = some h13 := by
  refine ⟨?_, ?_, ?_, ?_⟩
  · rcases hres : Push minCtx (some h13) (13 : Int) (5 : Int) with ⟨r, fh2⟩
    have hr : r = .error .duplicateValue := by
      have hpush : Push minCtx (some h13) (13 : Int) (5 : Int)
          = (.error .duplicateValue, some h13) := by decide
      rw [hpush] at hres
      injection hres with h1 _
      exact h1.symm
    exact (c9_error_frame minCtx h13 13 5).2.1 .duplicateValue fh2 (by rw [hres, hr])
  · rcases hres : Pop minCtx (some (New : Heap Int Int)) with ⟨r, fh2⟩
    have hr : r = .error .emptyHeap := by
      have hpop : Pop minCtx (some (New : Heap Int Int))
          = (.error .emptyHeap, some New) := by decide
      rw [hpop] at hres
      injection hres with h1 _
      exact h1.symm
    exact (c9_error_frame minCtx (New : Heap Int Int) 99 7).2.2.1
      (fun pr hpr => Option.noConfusion hpr)
      .emptyHeap fh2 (by rw [hres, hr]) rfl
  · rcases hres : IncreasePriority minCtx (some h13) (99 : Int) (7 : Int) with ⟨r, fh2⟩
    have hr : r = .error .missingValue := by
      have hip : IncreasePriority minCtx (some h13) (99 : Int) (7 : Int)
          = (.error .missingValue, some h13) := by decide
      rw [hip] at hres
      injection hres with h1 _
      exact h1.symm
    refine (c9_error_frame minCtx h13 99 7).2.2.2.1 ?_ ?_ .missingValue fh2
      (by rw [hres, hr]) rfl
    · intro x y e fh2x hx
      rw [show mapLookup h13.values (99 : Int) = none from rfl] at hx
      exact Option.noConfusion hx
    · intro x y fh1 e fh3 hx
      rw [show mapLookup h13.values (99 : Int) = none from rfl] at hx
      exact Option.noConfusion hx
  · rcases hres : Delete minCtx (some h13) (99 : Int) with ⟨r, fh2⟩
    have hr : r = .error .missingValue := by
      have hd : Delete minCtx (some h13) (99 : Int)
          = (.error .missingValue, some h13) := by decide
      rw [hd] at hres
      injection hres with h1 _
      exact h1.symm
    refine (c9_error_frame minCtx h13 99 7).2.2.2.2 ?_ ?_ ?_ .missingValue fh2
      (by rw [hres, hr]) rfl
    · intro x y e fh2x hx
      rw [show mapLookup h13.values (99 : Int) = none from rfl] at hx
      exact Option.noConfusion hx
    · intro x y fh1 e fh3 hx
      rw [show mapLookup h13.values (99 : Int) = none from rfl] at hx
      exact Option.noConfusion hx
    · intro fh1 pr1 hinc
      have hcomp : increasePriority minCtx h13 (99 : Int) (minCtx.highestPriority)
          = (.error .missingValue, h13) := by decide
      rw [hcomp] at hinc
      simp at hinc

/-- C4 (witness): pushing (14, 7) onto the one-element heap `h13`. -/
theorem c4_push_spec_witness :
    (Push minCtx (some h13) 14 7).1 = .ok () ∧
    ∀ h2, (Push minCtx (some h13) 14 7).2 = some h2 →
      h2.values = mapInsert h13.values 14 h13.nodes.length ∧
      (nget h2.nodes h13.nodes.length).Value = 14 ∧
      (nget h2.nodes h13.nodes.length).right = 0 ∧
      h2.prioritaire = some 0 := by
  rcases hres : Push minCtx (some h13) 14 7 with ⟨r, fh2⟩
  have h := (c4_push_spec minCtx h13 14 7).2.2.2.2 0 (by decide) (by decide) (by decide)
    (by decide) (by decide) r fh2 hres
  refine ⟨h.1, ?_⟩
  intro h2 hh2
  have hs := h.2 h2 hh2
  refine ⟨hs.1, hs.2.2.1, hs.2.2.2.2.2.2.2.2.1, ?_⟩
  rw [hs.2.2.2.2.2.2.2.2.2.2.2.2.2.2]
  decide

end Fheap
